import Mathlib

/-!
Shallow embedding of the checkers engine in `main.py`.

Board cells are the source's integer tags: 0 = empty, 1 = red man,
2 = black man, 3 = red king, 4 = black king.  A board is a list of rows
(the source's list of lists), a move is a pair of (row, column) pairs.
Scores are integers extended with the two infinite sentinels the source
represents as `float('-inf')` / `float('inf')`; we use
`WithBot (WithTop Int)`, whose `⊥` and `⊤` play those roles.
-/

abbrev Board := List (List Nat)

abbrev Move := (Nat × Nat) × (Nat × Nat)

/-- `board[r][c]` for in-range indices (out-of-range reads default to 0;
the source only reads in range). -/
def getCell (board : Board) (r c : Nat) : Nat :=
  (board.getD r []).getD c 0

/-- `board[r][c] = v` for in-range indices (out of range it is a no-op;
the source only writes in range). -/
def setCell (board : Board) (r c : Nat) (v : Nat) : Board :=
  board.set r ((board.getD r []).set c v)

/-- `same_color` from the source: both tags red (1,3) or both black (2,4). -/
def same_color (piece_a piece_b : Nat) : Bool :=
  if (piece_a = 1 ∨ piece_a = 3) ∧ (piece_b = 1 ∨ piece_b = 3) then true
  else if (piece_a = 2 ∨ piece_a = 4) ∧ (piece_b = 2 ∨ piece_b = 4) then true
  else false

/-- `possible_moves_for_piece` from the source: the per-direction step and
jump candidates for the piece at `(r, c)`.  Coordinates are computed in `Int`
exactly as the Python arithmetic does, with the same range guards. -/
def possible_moves_for_piece (board : Board) (r c : Nat) : List Move :=
  let piece := getCell board r c
  let direction : List (Int × Int) :=
    if piece = 1 then [(-1, -1), (-1, 1)]
    else if piece = 2 then [(1, -1), (1, 1)]
    else if piece = 3 then [(-1, -1), (-1, 1), (1, -1), (1, 1)]
    else if piece = 4 then [(-1, -1), (-1, 1), (1, -1), (1, 1)]
    else []
  direction.flatMap (fun d =>
    let new_r : Int := (r : Int) + d.1
    let new_c : Int := (c : Int) + d.2
    let step : List Move :=
      if 0 ≤ new_r ∧ new_r < 8 ∧ 0 ≤ new_c ∧ new_c < 8 ∧
          getCell board new_r.toNat new_c.toNat = 0 then
        [((r, c), (new_r.toNat, new_c.toNat))]
      else []
    let jump_r : Int := (r : Int) + 2 * d.1
    let jump_c : Int := (c : Int) + 2 * d.2
    let jump : List Move :=
      if 0 ≤ jump_r ∧ jump_r < 8 ∧ 0 ≤ jump_c ∧ jump_c < 8 ∧
          getCell board new_r.toNat new_c.toNat ≠ 0 ∧
          getCell board jump_r.toNat jump_c.toNat = 0 ∧
          ¬ same_color piece (getCell board new_r.toNat new_c.toNat) = true then
        [((r, c), (jump_r.toNat, jump_c.toNat))]
      else []
    step ++ jump)

/-- `get_all_moves` from the source: row-major scan of the 8×8 grid,
collecting moves for the side's pieces. -/
def get_all_moves (board : Board) (side : String) : List Move :=
  (List.range 8).flatMap (fun r =>
    (List.range 8).flatMap (fun c =>
      let piece := getCell board r c
      if side = "red" ∧ (piece = 1 ∨ piece = 3) then
        possible_moves_for_piece board r c
      else if side = "black" ∧ (piece = 2 ∨ piece = 4) then
        possible_moves_for_piece board r c
      else []))

/-- `apply_move` from the source.  The Python row-copy gives the function
value semantics; here boards are immutable values, so the copy is implicit
and the sequence of cell writes is modelled by `setCell`. -/
def apply_move (board : Board) (move : Move) : Board :=
  let r1 := move.1.1
  let c1 := move.1.2
  let r2 := move.2.1
  let c2 := move.2.2
  let piece := getCell board r1 c1
  let b1 := setCell board r1 c1 0
  let b2 := setCell b1 r2 c2 piece
  let b3 :=
    if ((r2 : Int) - (r1 : Int)).natAbs = 2 then
      setCell b2 ((r1 + r2) / 2) ((c1 + c2) / 2) 0
    else b2
  if piece = 1 ∧ r2 = 0 then setCell b3 r2 c2 3
  else if piece = 2 ∧ r2 = 7 then setCell b3 r2 c2 4
  else b3

/-- The per-cell material contribution used by `evaluate`. -/
def cellScore (p : Nat) : Int :=
  if p = 1 then 5
  else if p = 3 then 8
  else if p = 2 then -5
  else if p = 4 then -8
  else 0

/-- `evaluate` from the source: sum of per-cell material contributions over
the 8×8 grid. -/
def evaluate (board : Board) : Int :=
  ((List.range 8).map (fun r =>
    ((List.range 8).map (fun c => cellScore (getCell board r c))).sum)).sum

/-- Scores: integers plus the sentinels `float('-inf')` (`⊥`) and
`float('inf')` (`⊤`). -/
abbrev Score := WithBot (WithTop Int)

def toScore (n : Int) : Score := ((n : WithTop Int) : WithBot (WithTop Int))

/-- The inner `for mv in moves` loop of `alpha_beta` for the maximizing
player, with the running `value`, `alpha` and `best_move` threaded through.
`f` is the recursive call at depth − 1 (child search, minimizing). -/
def maxLoop (f : Score → Score → Board → Score) (board : Board) (beta : Score) :
    List Move → Score → Score → Option Move → Score × Option Move
  | [], value, _, best => (value, best)
  | mv :: rest, value, alpha, best =>
    let child := f alpha beta (apply_move board mv)
    let value' := if value < child then child else value
    let best' := if value < child then some mv else best
    let alpha' := max alpha value'
    if beta ≤ alpha' then (value', best')
    else maxLoop f board beta rest value' alpha' best'

/-- The inner `for mv in moves` loop of `alpha_beta` for the minimizing
player. -/
def minLoop (f : Score → Score → Board → Score) (board : Board) (alpha : Score) :
    List Move → Score → Score → Option Move → Score × Option Move
  | [], value, _, best => (value, best)
  | mv :: rest, value, beta, best =>
    let child := f alpha beta (apply_move board mv)
    let value' := if child < value then child else value
    let best' := if child < value then some mv else best
    let beta' := min beta value'
    if beta' ≤ alpha then (value', best')
    else minLoop f board alpha rest value' beta' best'

/-- `alpha_beta` from the source.  Depth is a natural number here (the
source passes non-negative depths; the `Int`-depth variant below models the
raw Python `depth` argument for the depth ≤ 0 edge claims). -/
def alpha_beta : Nat → Board → Score → Score → Bool → Score × Option Move
  | 0, board, _, _, _ => (toScore (evaluate board), none)
  | d + 1, board, alpha, beta, maximizing_player =>
    let side := if maximizing_player then "red" else "black"
    let moves := get_all_moves board side
    if moves = [] then
      ((if maximizing_player then (⊥ : Score) else ⊤), none)
    else if maximizing_player then
      maxLoop (fun a b bd => (alpha_beta d bd a b false).1) board beta moves ⊥ alpha none
    else
      minLoop (fun a b bd => (alpha_beta d bd a b true).1) board alpha moves ⊤ beta none

/-- `find_best_move` from the source: run the search with the full window
and return only the move component. -/
def find_best_move (board : Board) (side : String) (depth : Nat) : Option Move :=
  let maximizing := side = "red"
  (alpha_beta depth board ⊥ ⊤ maximizing).2

/-- The maximizing inner loop of the unpruned minimax (spec comparison
definition for the alpha-beta equivalence claim): same move generator,
transition and tie-breaking, no window, no cutoff. -/
def mmMaxLoop (g : Board → Score) (board : Board) :
    List Move → Score → Option Move → Score × Option Move
  | [], value, best => (value, best)
  | mv :: rest, value, best =>
    let child := g (apply_move board mv)
    if value < child then mmMaxLoop g board rest child (some mv)
    else mmMaxLoop g board rest value best

/-- The minimizing inner loop of the unpruned minimax. -/
def mmMinLoop (g : Board → Score) (board : Board) :
    List Move → Score → Option Move → Score × Option Move
  | [], value, best => (value, best)
  | mv :: rest, value, best =>
    let child := g (apply_move board mv)
    if child < value then mmMinLoop g board rest child (some mv)
    else mmMinLoop g board rest value best

/-- Unpruned full minimax over the same game tree (spec comparison
definition, from the spec's words: "an unpruned full minimax over the same
tree" with the same generator, transition function and evaluator). -/
def minimax : Nat → Board → Bool → Score × Option Move
  | 0, board, _ => (toScore (evaluate board), none)
  | d + 1, board, maximizing_player =>
    let side := if maximizing_player then "red" else "black"
    let moves := get_all_moves board side
    if moves = [] then
      ((if maximizing_player then (⊥ : Score) else ⊤), none)
    else if maximizing_player then
      mmMaxLoop (fun bd => (minimax d bd false).1) board moves ⊥ none
    else
      mmMinLoop (fun bd => (minimax d bd true).1) board moves ⊤ none

/-- Fuel-indexed maximizing loop for the `Int`-depth model of `alpha_beta`
(the raw Python `depth` argument); `f` returns `none` when the fuel bound
is hit before the recursion bottoms out. -/
def maxLoopI (f : Score → Score → Board → Option Score) (board : Board) (beta : Score) :
    List Move → Score → Score → Option Move → Option (Score × Option Move)
  | [], value, _, best => some (value, best)
  | mv :: rest, value, alpha, best =>
    match f alpha beta (apply_move board mv) with
    | none => none
    | some child =>
      let value' := if value < child then child else value
      let best' := if value < child then some mv else best
      let alpha' := max alpha value'
      if beta ≤ alpha' then some (value', best')
      else maxLoopI f board beta rest value' alpha' best'

/-- Fuel-indexed minimizing loop for the `Int`-depth model of
`alpha_beta`. -/
def minLoopI (f : Score → Score → Board → Option Score) (board : Board) (alpha : Score) :
    List Move → Score → Score → Option Move → Option (Score × Option Move)
  | [], value, _, best => some (value, best)
  | mv :: rest, value, beta, best =>
    match f alpha beta (apply_move board mv) with
    | none => none
    | some child =>
      let value' := if child < value then child else value
      let best' := if child < value then some mv else best
      let beta' := min beta value'
      if beta' ≤ alpha then some (value', best')
      else minLoopI f board alpha rest value' beta' best'

/-- `alpha_beta` with the depth argument an `Int`, exactly as Python passes
it: only `depth == 0` is a terminal, every other depth (negative included)
recurses with `depth - 1`.  The extra `Nat` fuel argument only bounds the
modelled recursion: a `some` result is a value the Python function actually
returns, `none` means the recursion did not bottom out within the fuel. -/
def alpha_beta_int : Nat → Board → Int → Score → Score → Bool → Option (Score × Option Move)
  | 0, _, _, _, _, _ => none
  | fuel + 1, board, depth, alpha, beta, maximizing_player =>
    if depth = 0 then some (toScore (evaluate board), none)
    else
      let side := if maximizing_player then "red" else "black"
      let moves := get_all_moves board side
      if moves = [] then
        some ((if maximizing_player then (⊥ : Score) else ⊤), none)
      else if maximizing_player then
        maxLoopI (fun a b bd => (alpha_beta_int fuel bd (depth - 1) a b false).map Prod.fst)
          board beta moves ⊥ alpha none
      else
        minLoopI (fun a b bd => (alpha_beta_int fuel bd (depth - 1) a b true).map Prod.fst)
          board alpha moves ⊤ beta none

/-- The hardcoded sample starting layout from the source. -/
def initial_board : Board :=
  [[3, 0, 0, 0, 0, 0, 0, 0],
   [0, 0, 0, 0, 0, 0, 0, 3],
   [3, 0, 3, 0, 3, 0, 0, 0],
   [0, 0, 0, 0, 0, 0, 0, 4],
   [0, 0, 4, 0, 4, 0, 0, 0],
   [0, 0, 0, 0, 0, 0, 0, 0],
   [0, 0, 0, 0, 0, 0, 0, 0],
   [0, 0, 0, 0, 0, 0, 0, 0]]

/-- Well-formed board shape: 8 rows of 8 cells. -/
def WF (board : Board) : Prop :=
  board.length = 8 ∧ ∀ row ∈ board, row.length = 8

instance (board : Board) : Decidable (WF board) := by
  unfold WF; infer_instance

/-- Every cell holds one of the five valid tags 0–4. -/
def ValidTags (board : Board) : Prop :=
  ∀ row ∈ board, ∀ cell ∈ row, cell ≤ 4

instance (board : Board) : Decidable (ValidTags board) := by
  unfold ValidTags; infer_instance

/-- Number of occupied cells of a board. -/
def countPieces (board : Board) : Nat :=
  (board.map (fun row => row.countP (fun x => x ≠ 0))).sum

/-- Number of red pieces (tags 1 and 3) on the 8×8 grid, as an integer. -/
def redCount (board : Board) : Int :=
  ((List.range 8).map (fun r =>
    ((List.range 8).map (fun c =>
      if getCell board r c = 1 ∨ getCell board r c = 3 then (1 : Int) else 0)).sum)).sum

/-- Number of black pieces (tags 2 and 4) on the 8×8 grid, as an integer. -/
def blackCount (board : Board) : Int :=
  ((List.range 8).map (fun r =>
    ((List.range 8).map (fun c =>
      if getCell board r c = 2 ∨ getCell board r c = 4 then (1 : Int) else 0)).sum)).sum

/-- Sample boards used to instantiate theorems with hypotheses. -/
def emptyBoard : Board := List.replicate 8 (List.replicate 8 0)

/-- A lone red king at (0,0). -/
def kingBoard : Board :=
  [[3, 0, 0, 0, 0, 0, 0, 0],
   [0, 0, 0, 0, 0, 0, 0, 0],
   [0, 0, 0, 0, 0, 0, 0, 0],
   [0, 0, 0, 0, 0, 0, 0, 0],
   [0, 0, 0, 0, 0, 0, 0, 0],
   [0, 0, 0, 0, 0, 0, 0, 0],
   [0, 0, 0, 0, 0, 0, 0, 0],
   [0, 0, 0, 0, 0, 0, 0, 0]]

/-- Red man at (1,1) with black men at (0,0), (1,3), (2,0), (2,4): red's
only move is (1,1)→(0,2), after which black can trap the promoted king. -/
def trapBoard : Board :=
  [[2, 0, 0, 0, 0, 0, 0, 0],
   [0, 1, 0, 2, 0, 0, 0, 0],
   [2, 0, 0, 0, 2, 0, 0, 0],
   [0, 0, 0, 0, 0, 0, 0, 0],
   [0, 0, 0, 0, 0, 0, 0, 0],
   [0, 0, 0, 0, 0, 0, 0, 0],
   [0, 0, 0, 0, 0, 0, 0, 0],
   [0, 0, 0, 0, 0, 0, 0, 0]]

/-- Red man at (3,3), black man at (2,2): the jump ((3,3),(1,1)) is legal. -/
def jumpBoard : Board :=
  [[0, 0, 0, 0, 0, 0, 0, 0],
   [0, 0, 0, 0, 0, 0, 0, 0],
   [0, 0, 2, 0, 0, 0, 0, 0],
   [0, 0, 0, 1, 0, 0, 0, 0],
   [0, 0, 0, 0, 0, 0, 0, 0],
   [0, 0, 0, 0, 0, 0, 0, 0],
   [0, 0, 0, 0, 0, 0, 0, 0],
   [0, 0, 0, 0, 0, 0, 0, 0]]

/-- A well-formed board (every cell a valid tag) holding 64 red kings. -/
def allKings : Board := List.replicate 8 (List.replicate 8 3)

/-! ### Cell access lemmas -/

lemma length_setCell (b : Board) (r c v : Nat) : (setCell b r c v).length = b.length := by
  simp [setCell]

lemma getCell_setCell_same (b : Board) (hw : WF b) {r c : Nat} (hr : r < 8) (hc : c < 8)
    (v : Nat) : getCell (setCell b r c v) r c = v := by
  obtain ⟨hlen, hrow⟩ := hw
  have hrb : r < b.length := by omega
  have hrowlen : ((b[r]?).getD []).length = 8 := by
    rw [List.getElem?_eq_getElem hrb]
    exact hrow _ (List.getElem_mem hrb)
  simp only [getCell, setCell, List.getD_eq_getElem?_getD]
  rw [List.getElem?_set_eq_of_lt _ (by simpa using hrb)]
  simp only [Option.getD_some]
  rw [List.getElem?_set_eq_of_lt _ (by omega)]
  rfl

lemma getCell_setCell_ne (b : Board) {r c r' c' : Nat} (h : r ≠ r' ∨ c ≠ c')
    (v : Nat) : getCell (setCell b r c v) r' c' = getCell b r' c' := by
  rcases Nat.lt_or_ge r b.length with hrb | hrb
  swap
  · unfold setCell
    rw [List.set_eq_of_length_le hrb]
  rcases eq_or_ne r r' with rfl | hrr
  · have hcc : c ≠ c' := h.resolve_left (by simp)
    simp only [getCell, setCell, List.getD_eq_getElem?_getD]
    rw [List.getElem?_set_eq_of_lt _ (by simpa using hrb)]
    simp only [Option.getD_some]
    rw [List.getElem?_set_ne hcc]
  · simp only [getCell, setCell, List.getD_eq_getElem?_getD]
    rw [List.getElem?_set_ne hrr]

lemma WF_setCell (b : Board) (hw : WF b) (r c v : Nat) : WF (setCell b r c v) := by
  obtain ⟨hlen, hrow⟩ := hw
  rcases Nat.lt_or_ge r b.length with hrb | hrb
  · refine ⟨by simp [setCell, hlen], ?_⟩
    intro row hmem
    rcases List.mem_or_eq_of_mem_set hmem with hmem' | rfl
    · exact hrow _ hmem'
    · rw [List.length_set]
      refine hrow _ ?_
      rw [List.getD_eq_getElem?_getD, List.getElem?_eq_getElem hrb]
      exact List.getElem_mem hrb
  · unfold setCell
    rw [List.set_eq_of_length_le hrb]
    exact ⟨hlen, hrow⟩

lemma getCell_setCell (b : Board) (hw : WF b) {r' c' : Nat} (hr' : r' < 8) (hc' : c' < 8)
    (v : Nat) (r c : Nat) :
    getCell (setCell b r' c' v) r c = if r = r' ∧ c = c' then v else getCell b r c := by
  by_cases h : r = r' ∧ c = c'
  · obtain ⟨rfl, rfl⟩ := h
    rw [if_pos ⟨rfl, rfl⟩, getCell_setCell_same b hw hr' hc' v]
  · rw [if_neg h, getCell_setCell_ne]
    rcases eq_or_ne r' r with rfl | hne
    · exact Or.inr fun hcc => h ⟨rfl, hcc.symm⟩
    · exact Or.inl hne

/-- The tag `apply_move` leaves at the destination: the moved piece,
crowned on the promotion rows. -/
def promoted (piece r2 : Nat) : Nat :=
  if piece = 1 ∧ r2 = 0 then 3
  else if piece = 2 ∧ r2 = 7 then 4
  else piece

/-- `apply_move` on a literal move, with the source's local bindings spelled
out (definitional unfolding used as a rewriting handle). -/
lemma apply_move_eq (b : Board) (r1 c1 r2 c2 : Nat) :
    apply_move b ((r1, c1), (r2, c2)) =
      (if getCell b r1 c1 = 1 ∧ r2 = 0 then
        setCell
          (if ((r2 : Int) - (r1 : Int)).natAbs = 2 then
            setCell (setCell (setCell b r1 c1 0) r2 c2 (getCell b r1 c1))
              ((r1 + r2) / 2) ((c1 + c2) / 2) 0
          else setCell (setCell b r1 c1 0) r2 c2 (getCell b r1 c1)) r2 c2 3
      else if getCell b r1 c1 = 2 ∧ r2 = 7 then
        setCell
          (if ((r2 : Int) - (r1 : Int)).natAbs = 2 then
            setCell (setCell (setCell b r1 c1 0) r2 c2 (getCell b r1 c1))
              ((r1 + r2) / 2) ((c1 + c2) / 2) 0
          else setCell (setCell b r1 c1 0) r2 c2 (getCell b r1 c1)) r2 c2 4
      else
        (if ((r2 : Int) - (r1 : Int)).natAbs = 2 then
          setCell (setCell (setCell b r1 c1 0) r2 c2 (getCell b r1 c1))
            ((r1 + r2) / 2) ((c1 + c2) / 2) 0
        else setCell (setCell b r1 c1 0) r2 c2 (getCell b r1 c1))) := rfl

/-- Full cell-level characterization of `apply_move` on in-range moves:
the destination holds the (possibly promoted) moved piece, the midpoint of
a row-delta-2 move is cleared, the origin is cleared, and every other cell
is untouched. -/
lemma getCell_apply_move (b : Board) (hw : WF b) {r1 c1 r2 c2 : Nat}
    (h1 : r1 < 8) (h2 : c1 < 8) (h3 : r2 < 8) (h4 : c2 < 8) (r c : Nat) :
    getCell (apply_move b ((r1, c1), (r2, c2))) r c =
      if r = r2 ∧ c = c2 then promoted (getCell b r1 c1) r2
      else if ((r2 : Int) - (r1 : Int)).natAbs = 2 ∧
          r = (r1 + r2) / 2 ∧ c = (c1 + c2) / 2 then 0
      else if r = r1 ∧ c = c1 then 0
      else getCell b r c := by
  have hmidr : (r1 + r2) / 2 < 8 := by omega
  have hmidc : (c1 + c2) / 2 < 8 := by omega
  have hw1 : WF (setCell b r1 c1 0) := WF_setCell b hw r1 c1 0
  have hw2 : WF (setCell (setCell b r1 c1 0) r2 c2 (getCell b r1 c1)) :=
    WF_setCell _ hw1 r2 c2 _
  have hw3 : WF (setCell (setCell (setCell b r1 c1 0) r2 c2 (getCell b r1 c1))
      ((r1 + r2) / 2) ((c1 + c2) / 2) 0) := WF_setCell _ hw2 _ _ 0
  rw [apply_move_eq]
  have E2 : ∀ r c : Nat, getCell (setCell (setCell b r1 c1 0) r2 c2 (getCell b r1 c1)) r c =
      if r = r2 ∧ c = c2 then getCell b r1 c1
      else if r = r1 ∧ c = c1 then 0 else getCell b r c := fun r c => by
    rw [getCell_setCell _ hw1 h3 h4, getCell_setCell _ hw h1 h2]
  by_cases hj : ((r2 : Int) - (r1 : Int)).natAbs = 2
  · simp only [if_pos hj]
    by_cases hp1 : getCell b r1 c1 = 1 ∧ r2 = 0
    · simp only [if_pos hp1]
      rw [getCell_setCell _ hw3 h3 h4, getCell_setCell _ hw2 hmidr hmidc, E2]
      simp only [promoted]
      split_ifs <;> omega
    · simp only [if_neg hp1]
      by_cases hp2 : getCell b r1 c1 = 2 ∧ r2 = 7
      · simp only [if_pos hp2]
        rw [getCell_setCell _ hw3 h3 h4, getCell_setCell _ hw2 hmidr hmidc, E2]
        simp only [promoted]
        split_ifs <;> omega
      · simp only [if_neg hp2]
        rw [getCell_setCell _ hw2 hmidr hmidc, E2]
        simp only [promoted]
        split_ifs <;> omega
  · simp only [if_neg hj]
    by_cases hp1 : getCell b r1 c1 = 1 ∧ r2 = 0
    · simp only [if_pos hp1]
      rw [getCell_setCell _ hw2 h3 h4, E2]
      simp only [promoted]
      split_ifs <;> omega
    · simp only [if_neg hp1]
      by_cases hp2 : getCell b r1 c1 = 2 ∧ r2 = 7
      · simp only [if_pos hp2]
        rw [getCell_setCell _ hw2 h3 h4, E2]
        simp only [promoted]
        split_ifs <;> omega
      · simp only [if_neg hp2]
        rw [E2]
        simp only [promoted]
        split_ifs <;> omega

lemma WF_apply_move (b : Board) (hw : WF b) (r1 c1 r2 c2 : Nat) :
    WF (apply_move b ((r1, c1), (r2, c2))) := by
  rw [apply_move_eq]
  split_ifs <;> (repeat apply WF_setCell) <;> exact hw

/-- C6: for any board and any move whose row delta has magnitude 2, the
resulting board has the arithmetic midpoint cell cleared (unconditionally:
no hypothesis about what occupied it), the origin cleared, and the moved
piece, possibly promoted, at the destination. -/
theorem claim_C6_capture_clears_midpoint (b : Board) (hw : WF b) {r1 c1 r2 c2 : Nat}
    (h1 : r1 < 8) (h2 : c1 < 8) (h3 : r2 < 8) (h4 : c2 < 8)
    (hjump : ((r2 : Int) - (r1 : Int)).natAbs = 2) :
    getCell (apply_move b ((r1, c1), (r2, c2))) ((r1 + r2) / 2) ((c1 + c2) / 2) = 0 ∧
    getCell (apply_move b ((r1, c1), (r2, c2))) r1 c1 = 0 ∧
    getCell (apply_move b ((r1, c1), (r2, c2))) r2 c2 = promoted (getCell b r1 c1) r2 := by
  refine ⟨?_, ?_, ?_⟩ <;> rw [getCell_apply_move b hw h1 h2 h3 h4] <;>
    split_ifs <;> first | rfl | omega

theorem claim_C6_capture_clears_midpoint_witness :
    WF jumpBoard ∧ (((1 : Int) - (3 : Int)).natAbs = 2) ∧
    (getCell (apply_move jumpBoard ((3, 3), (1, 1))) 2 2 = 0 ∧
     getCell (apply_move jumpBoard ((3, 3), (1, 1))) 3 3 = 0 ∧
     getCell (apply_move jumpBoard ((3, 3), (1, 1))) 1 1 =
       promoted (getCell jumpBoard 3 3) 1) :=
  ⟨by decide, by decide,
    claim_C6_capture_clears_midpoint jumpBoard (by decide) (by decide) (by decide)
      (by decide) (by decide) (by decide)⟩

/-- C7: the destination tag after `apply_move` is RedKing (3) exactly when a
RedMan (1) lands on row 0, BlackKing (4) exactly when a BlackMan (2) lands on
row 7, and otherwise the moved piece's tag unchanged — independent of
whether the move was a step or a jump, with kings never demoted. -/
theorem claim_C7_promotion_boundary (b : Board) (hw : WF b) {r1 c1 r2 c2 : Nat}
    (h1 : r1 < 8) (h2 : c1 < 8) (h3 : r2 < 8) (h4 : c2 < 8) :
    getCell (apply_move b ((r1, c1), (r2, c2))) r2 c2 =
      (if getCell b r1 c1 = 1 ∧ r2 = 0 then 3
       else if getCell b r1 c1 = 2 ∧ r2 = 7 then 4
       else getCell b r1 c1) := by
  rw [getCell_apply_move b hw h1 h2 h3 h4, if_pos ⟨rfl, rfl⟩]
  simp only [promoted]

theorem claim_C7_promotion_boundary_witness :
    WF trapBoard ∧ getCell trapBoard 1 1 = 1 ∧
    getCell (apply_move trapBoard ((1, 1), (0, 2))) 0 2 =
      (if getCell trapBoard 1 1 = 1 ∧ 0 = 0 then 3
       else if getCell trapBoard 1 1 = 2 ∧ 0 = 7 then 4
       else getCell trapBoard 1 1) :=
  ⟨by decide, by decide,
    claim_C7_promotion_boundary trapBoard (by decide) (by decide) (by decide)
      (by decide) (by decide)⟩

/-- C8: `apply_move` is a pure function on immutable board values (its input
is never mutated — the embedding of the source's copy-then-write pattern),
and every cell other than the origin, the destination, and — when the row
delta has magnitude 2 — the midpoint, is unchanged in the returned board. -/
theorem claim_C8_frame (b : Board) (hw : WF b) {r1 c1 r2 c2 : Nat}
    (h1 : r1 < 8) (h2 : c1 < 8) (h3 : r2 < 8) (h4 : c2 < 8) (r c : Nat)
    (hno : ¬(r = r1 ∧ c = c1)) (hnd : ¬(r = r2 ∧ c = c2))
    (hnm : ((r2 : Int) - (r1 : Int)).natAbs = 2 →
      ¬(r = (r1 + r2) / 2 ∧ c = (c1 + c2) / 2)) :
    getCell (apply_move b ((r1, c1), (r2, c2))) r c = getCell b r c := by
  rw [getCell_apply_move b hw h1 h2 h3 h4, if_neg hnd,
    if_neg (fun h => hnm h.1 h.2), if_neg hno]

theorem claim_C8_frame_witness :
    WF jumpBoard ∧ ¬((0 : Nat) = 3 ∧ (5 : Nat) = 3) ∧ ¬((0 : Nat) = 1 ∧ (5 : Nat) = 1) ∧
    getCell (apply_move jumpBoard ((3, 3), (1, 1))) 0 5 = getCell jumpBoard 0 5 :=
  ⟨by decide, by decide, by decide,
    claim_C8_frame jumpBoard (by decide) (by decide) (by decide) (by decide) (by decide)
      0 5 (by decide) (by decide) (fun _ => by decide)⟩

/-! ### Evaluation bounds -/

lemma cellScore_le_red (p : Nat) :
    cellScore p ≤ 8 * (if p = 1 ∨ p = 3 then (1 : Int) else 0) := by
  unfold cellScore; split_ifs <;> omega

lemma neg_cellScore_le_black (p : Nat) :
    -cellScore p ≤ 8 * (if p = 2 ∨ p = 4 then (1 : Int) else 0) := by
  unfold cellScore; split_ifs <;> omega

lemma evaluate_le_redCount (b : Board) : evaluate b ≤ 8 * redCount b := by
  unfold evaluate redCount
  rw [← List.sum_map_mul_left]
  refine List.sum_le_sum fun r _ => ?_
  rw [← List.sum_map_mul_left]
  exact List.sum_le_sum fun c _ => cellScore_le_red _

lemma neg_sum_map (l : List Nat) (f : Nat → Int) :
    -((l.map f).sum) = (l.map (fun x => -(f x))).sum := by
  induction l with
  | nil => simp
  | cons x xs ih => simp [ih]; ring

lemma neg_evaluate_le_blackCount (b : Board) : -evaluate b ≤ 8 * blackCount b := by
  unfold evaluate blackCount
  rw [← List.sum_map_mul_left, neg_sum_map]
  refine List.sum_le_sum fun r _ => ?_
  rw [← List.sum_map_mul_left, neg_sum_map]
  exact List.sum_le_sum fun c _ => neg_cellScore_le_black _

lemma bot_lt_toScore (n : Int) : ⊥ < toScore n := WithBot.bot_lt_coe _

lemma toScore_lt_top (n : Int) : toScore n < ⊤ := WithBot.coe_lt_coe.2 (WithTop.coe_lt_top n)

/-- C9 as stated is false: the all-red-kings board is well formed (8×8,
every cell a valid tag) yet evaluates to 512, far above the claimed ±96
bound. -/
theorem claim_C9_material_bound_cex :
    WF allKings ∧ ValidTags allKings ∧ evaluate allKings = 512 ∧
    ¬((evaluate allKings).natAbs ≤ 96) :=
  ⟨by decide, by decide, by decide, by decide⟩

/-- C9 amended: `evaluate` is the per-cell material sum of the embedding,
always strictly between the two infinite sentinels; the ±(8×12) = ±96 bound
holds for boards with at most 12 pieces per side (the maximum of a real
game), not for arbitrary well-formed boards. -/
theorem claim_C9_material_bound (b : Board)
    (hr : redCount b ≤ 12) (hb : blackCount b ≤ 12) :
    -96 ≤ evaluate b ∧ evaluate b ≤ 96 ∧
    ⊥ < toScore (evaluate b) ∧ toScore (evaluate b) < ⊤ := by
  have h1 := evaluate_le_redCount b
  have h2 := neg_evaluate_le_blackCount b
  exact ⟨by omega, by omega, bot_lt_toScore _, toScore_lt_top _⟩

theorem claim_C9_material_bound_witness :
    redCount initial_board ≤ 12 ∧ blackCount initial_board ≤ 12 ∧
    (-96 ≤ evaluate initial_board ∧ evaluate initial_board ≤ 96 ∧
     ⊥ < toScore (evaluate initial_board) ∧ toScore (evaluate initial_board) < ⊤) :=
  ⟨by decide, by decide, claim_C9_material_bound initial_board (by decide) (by decide)⟩

/-- C3: at any positive depth at which the side to move has zero legal
moves, the search returns (−infinity, none) when Red is to move and
(+infinity, none) when Black is to move — for any window — and
`find_best_move` returns no move on such a board. -/
theorem claim_C3_no_moves_terminal (b : Board) (d : Nat) (alpha beta : Score) :
    (get_all_moves b "red" = [] →
      alpha_beta (d + 1) b alpha beta true = (⊥, none) ∧
      find_best_move b "red" (d + 1) = none) ∧
    (get_all_moves b "black" = [] →
      alpha_beta (d + 1) b alpha beta false = (⊤, none) ∧
      find_best_move b "black" (d + 1) = none) := by
  constructor <;> intro h
  · have e : alpha_beta (d + 1) b alpha beta true = (⊥, none) := by
      simp [alpha_beta, h]
    have e' : alpha_beta (d + 1) b ⊥ ⊤ true = (⊥, none) := by
      simp [alpha_beta, h]
    have : find_best_move b "red" (d + 1) = (alpha_beta (d + 1) b ⊥ ⊤ true).2 := rfl
    rw [this, e']
    exact ⟨e, rfl⟩
  · have e : alpha_beta (d + 1) b alpha beta false = (⊤, none) := by
      simp [alpha_beta, h]
    have e' : alpha_beta (d + 1) b ⊥ ⊤ false = (⊤, none) := by
      simp [alpha_beta, h]
    have : find_best_move b "black" (d + 1) = (alpha_beta (d + 1) b ⊥ ⊤ false).2 := rfl
    rw [this, e']
    exact ⟨e, rfl⟩

theorem claim_C3_no_moves_terminal_witness :
    (get_all_moves emptyBoard "red" = [] ∧
     alpha_beta 1 emptyBoard ⊥ ⊤ true = (⊥, none) ∧
     find_best_move emptyBoard "red" 1 = none) ∧
    (get_all_moves emptyBoard "black" = [] ∧
     alpha_beta 1 emptyBoard ⊥ ⊤ false = (⊤, none) ∧
     find_best_move emptyBoard "black" 1 = none) :=
  ⟨⟨by decide, (claim_C3_no_moves_terminal emptyBoard 0 ⊥ ⊤).1 (by decide)⟩,
   ⟨by decide, (claim_C3_no_moves_terminal emptyBoard 0 ⊥ ⊤).2 (by decide)⟩⟩

/-- C4 is false as stated: at externally supplied depth −1, on a board with
a lone red king (which has a legal move), the search does not return
(evaluate board, none) immediately — it recurses (the depth −2 child call
is what stops it), returning (+infinity, some move). -/
theorem claim_C4_nonpositive_depth_cex :
    alpha_beta_int 10 kingBoard (-1) ⊥ ⊤ true = some (⊤, some ((0, 0), (1, 1))) ∧
    evaluate kingBoard = 8 ∧
    alpha_beta_int 10 kingBoard (-1) ⊥ ⊤ true ≠
      some (toScore (evaluate kingBoard), none) :=
  ⟨by decide, by decide, by decide⟩

/-- C4 amended: only depth = 0 is the immediate terminal-by-depth case —
the search then returns (evaluate board, none) with no recursion (any
positive fuel suffices); a negative externally supplied depth is not
terminal: the code recurses on it, as the counterexample records. -/
theorem claim_C4_depth_zero_terminal (fuel : Nat) (b : Board) (alpha beta : Score)
    (m : Bool) :
    alpha_beta_int (fuel + 1) b 0 alpha beta m = some (toScore (evaluate b), none) := by
  simp [alpha_beta_int]

/-! ### Move generator characterization -/

/-- The direction list `possible_moves_for_piece` computes for a tag (the
source's if/elif chain, factored out verbatim). -/
def pieceDirs (piece : Nat) : List (Int × Int) :=
  if piece = 1 then [(-1, -1), (-1, 1)]
  else if piece = 2 then [(1, -1), (1, 1)]
  else if piece = 3 then [(-1, -1), (-1, 1), (1, -1), (1, 1)]
  else if piece = 4 then [(-1, -1), (-1, 1), (1, -1), (1, 1)]
  else []

lemma mem_ite_singleton {α : Type} (P : Prop) [Decidable P] (x a : α) :
    (a ∈ if P then [x] else []) ↔ P ∧ a = x := by
  split_ifs with h <;> simp [h]

lemma mem_possible_moves_iff (board : Board) (r c : Nat) (mv : Move) :
    mv ∈ possible_moves_for_piece board r c ↔
      ∃ d ∈ pieceDirs (getCell board r c),
        ((0 ≤ (r : Int) + d.1 ∧ (r : Int) + d.1 < 8 ∧ 0 ≤ (c : Int) + d.2 ∧
            (c : Int) + d.2 < 8 ∧
            getCell board ((r : Int) + d.1).toNat ((c : Int) + d.2).toNat = 0) ∧
          mv = ((r, c), (((r : Int) + d.1).toNat, ((c : Int) + d.2).toNat)))
        ∨ ((0 ≤ (r : Int) + 2 * d.1 ∧ (r : Int) + 2 * d.1 < 8 ∧
            0 ≤ (c : Int) + 2 * d.2 ∧ (c : Int) + 2 * d.2 < 8 ∧
            getCell board ((r : Int) + d.1).toNat ((c : Int) + d.2).toNat ≠ 0 ∧
            getCell board ((r : Int) + 2 * d.1).toNat ((c : Int) + 2 * d.2).toNat = 0 ∧
            ¬ same_color (getCell board r c)
                (getCell board ((r : Int) + d.1).toNat ((c : Int) + d.2).toNat) = true) ∧
          mv = ((r, c), (((r : Int) + 2 * d.1).toNat, ((c : Int) + 2 * d.2).toNat))) := by
  show mv ∈ (pieceDirs (getCell board r c)).flatMap _ ↔ _
  rw [List.mem_flatMap]
  refine exists_congr fun d => and_congr_right fun _ => ?_
  rw [List.mem_append, mem_ite_singleton, mem_ite_singleton]

lemma mem_filter_body (A B : Prop) [Decidable A] [Decidable B] (l : List Move) (mv : Move) :
    (mv ∈ if A then l else if B then l else []) ↔ (A ∨ B) ∧ mv ∈ l := by
  split_ifs with hA hB <;> simp [*]

lemma mem_get_all_moves_iff (board : Board) (side : String) (mv : Move) :
    mv ∈ get_all_moves board side ↔
      ∃ r < 8, ∃ c < 8,
        ((side = "red" ∧ (getCell board r c = 1 ∨ getCell board r c = 3)) ∨
         (side = "black" ∧ (getCell board r c = 2 ∨ getCell board r c = 4))) ∧
        mv ∈ possible_moves_for_piece board r c := by
  unfold get_all_moves
  simp only [List.mem_flatMap, List.mem_range]
  constructor
  · rintro ⟨r, hr, c, hc, hmem⟩
    rw [mem_filter_body] at hmem
    exact ⟨r, hr, c, hc, hmem.1, hmem.2⟩
  · rintro ⟨r, hr, c, hc, hside, hmem⟩
    exact ⟨r, hr, c, hc, (mem_filter_body _ _ _ _).2 ⟨hside, hmem⟩⟩

lemma getCell_le_four (b : Board) (hv : ValidTags b) (r c : Nat) : getCell b r c ≤ 4 := by
  simp only [getCell, List.getD_eq_getElem?_getD]
  rcases Nat.lt_or_ge r b.length with hrb | hrb
  · rw [List.getElem?_eq_getElem hrb]
    simp only [Option.getD_some]
    rcases Nat.lt_or_ge c (b[r]).length with hcb | hcb
    · rw [List.getElem?_eq_getElem hcb]
      exact hv _ (List.getElem_mem hrb) _ (List.getElem_mem hcb)
    · rw [List.getElem?_eq_none hcb]
      exact Nat.zero_le 4
  · rw [List.getElem?_eq_none hrb]
    simp

lemma getCell_ne_zero_lt (b : Board) (hw : WF b) {r c : Nat} (h : getCell b r c ≠ 0) :
    r < 8 ∧ c < 8 := by
  obtain ⟨hlen, hrow⟩ := hw
  by_contra hcon
  apply h
  simp only [getCell, List.getD_eq_getElem?_getD]
  rcases Nat.lt_or_ge r b.length with hrb | hrb
  · have hrl : (b[r]).length = 8 := hrow _ (List.getElem_mem hrb)
    have hc8 : ¬ c < 8 := fun hc => hcon ⟨by omega, hc⟩
    rw [List.getElem?_eq_getElem hrb]
    simp only [Option.getD_some]
    rw [List.getElem?_eq_none (by omega)]
    rfl
  · rw [List.getElem?_eq_none hrb]
    rfl

lemma same_color_iff (p q : Nat) :
    same_color p q = true ↔
      (((p = 1 ∨ p = 3) ∧ (q = 1 ∨ q = 3)) ∨ ((p = 2 ∨ p = 4) ∧ (q = 2 ∨ q = 4))) := by
  unfold same_color
  split_ifs with h1 h2 <;> simp [*]

/-- "A piece of that side" (spec wording): Red's friendly tags are RedMan
and RedKing (1, 3); Black's are BlackMan and BlackKing (2, 4). -/
abbrev sidePiece (side : String) (p : Nat) : Prop :=
  if side = "red" then p = 1 ∨ p = 3 else p = 2 ∨ p = 4

/-- "A piece of the opposing side" (spec wording). -/
abbrev opposingPiece (side : String) (q : Nat) : Prop :=
  if side = "red" then q = 2 ∨ q = 4 else q = 1 ∨ q = 3

/-- The claim's direction sets (spec wording): RedMan moves toward
decreasing rows, BlackMan toward increasing rows, kings on all four
diagonals. -/
def specDirs (p : Nat) : List (Int × Int) :=
  if p = 1 then [(-1, -1), (-1, 1)]
  else if p = 2 then [(1, -1), (1, 1)]
  else if p = 3 ∨ p = 4 then [(-1, -1), (-1, 1), (1, -1), (1, 1)]
  else []

lemma sidePiece_red {p : Nat} : sidePiece "red" p ↔ (p = 1 ∨ p = 3) := by
  simp [sidePiece]

lemma sidePiece_black {p : Nat} : sidePiece "black" p ↔ (p = 2 ∨ p = 4) := by
  simp [sidePiece]

lemma opposingPiece_red {q : Nat} : opposingPiece "red" q ↔ (q = 2 ∨ q = 4) := by
  simp [opposingPiece]

lemma opposingPiece_black {q : Nat} : opposingPiece "black" q ↔ (q = 1 ∨ q = 3) := by
  simp [opposingPiece]

lemma sidePiece_cases (side : String) (hs : side = "red" ∨ side = "black") (p : Nat)
    (hp : sidePiece side p) : p = 1 ∨ p = 2 ∨ p = 3 ∨ p = 4 := by
  rcases hs with rfl | rfl
  · rw [sidePiece_red] at hp; tauto
  · rw [sidePiece_black] at hp; tauto

lemma specDirs_eq_pieceDirs {p : Nat} (hp : p = 1 ∨ p = 2 ∨ p = 3 ∨ p = 4) :
    specDirs p = pieceDirs p := by
  rcases hp with rfl | rfl | rfl | rfl <;> rfl

lemma pieceDirs_vals {p : Nat} {d : Int × Int} (hd : d ∈ pieceDirs p) :
    (d.1 = 1 ∨ d.1 = -1) ∧ (d.2 = 1 ∨ d.2 = -1) := by
  unfold pieceDirs at hd
  split_ifs at hd <;>
    simp only [List.mem_cons, List.not_mem_nil, or_false] at hd
  · rcases hd with rfl | rfl <;> exact ⟨Or.inr rfl, by simp⟩
  · rcases hd with rfl | rfl <;> exact ⟨Or.inl rfl, by simp⟩
  · rcases hd with rfl | rfl | rfl | rfl <;> refine ⟨by simp, by simp⟩
  · rcases hd with rfl | rfl | rfl | rfl <;> refine ⟨by simp, by simp⟩

lemma opposing_of_not_same {side : String} (hs : side = "red" ∨ side = "black")
    {p q : Nat} (hp : sidePiece side p) (hq4 : q ≤ 4) (hq0 : q ≠ 0)
    (hsc : ¬ same_color p q = true) : opposingPiece side q := by
  rw [same_color_iff] at hsc
  rcases hs with rfl | rfl
  · rw [sidePiece_red] at hp; rw [opposingPiece_red]; omega
  · rw [sidePiece_black] at hp; rw [opposingPiece_black]; omega

lemma not_same_of_opposing {side : String} (hs : side = "red" ∨ side = "black")
    {p q : Nat} (hp : sidePiece side p) (hq : opposingPiece side q) :
    ¬ same_color p q = true := by
  rw [same_color_iff]
  rcases hs with rfl | rfl
  · rw [sidePiece_red] at hp; rw [opposingPiece_red] at hq; omega
  · rw [sidePiece_black] at hp; rw [opposingPiece_black] at hq; omega

lemma mem_get_all_moves_characterization (board : Board) (hw : WF board)
    (hv : ValidTags board) (side : String) (hs : side = "red" ∨ side = "black")
    (r1 c1 r2 c2 : Nat) :
    (((r1, c1), (r2, c2)) : Move) ∈ get_all_moves board side ↔
      sidePiece side (getCell board r1 c1) ∧
      ((∃ d ∈ specDirs (getCell board r1 c1),
          (r2 : Int) = (r1 : Int) + d.1 ∧ (c2 : Int) = (c1 : Int) + d.2 ∧
          r2 < 8 ∧ c2 < 8 ∧ getCell board r2 c2 = 0) ∨
       (∃ d ∈ specDirs (getCell board r1 c1),
          (r2 : Int) = (r1 : Int) + 2 * d.1 ∧ (c2 : Int) = (c1 : Int) + 2 * d.2 ∧
          r2 < 8 ∧ c2 < 8 ∧ getCell board r2 c2 = 0 ∧
          0 ≤ (r1 : Int) + d.1 ∧ (r1 : Int) + d.1 < 8 ∧
          0 ≤ (c1 : Int) + d.2 ∧ (c1 : Int) + d.2 < 8 ∧
          opposingPiece side
            (getCell board ((r1 : Int) + d.1).toNat ((c1 : Int) + d.2).toNat))) := by
  constructor
  · intro hmem
    rw [mem_get_all_moves_iff] at hmem
    obtain ⟨r, hr8, c, hc8, hfilter, hpmp⟩ := hmem
    rw [mem_possible_moves_iff] at hpmp
    obtain ⟨d, hd, hcase⟩ := hpmp
    have hside : sidePiece side (getCell board r c) := by
      rcases hs with rfl | rfl
      · rw [sidePiece_red]
        rcases hfilter with ⟨_, h⟩ | ⟨h, _⟩
        · exact h
        · exact absurd h (by decide)
      · rw [sidePiece_black]
        rcases hfilter with ⟨h, _⟩ | ⟨_, h⟩
        · exact absurd h (by decide)
        · exact h
    have hp4 := sidePiece_cases side hs _ hside
    have hdv := pieceDirs_vals hd
    rcases hcase with ⟨hcond, heq⟩ | ⟨hcond, heq⟩ <;>
      simp only [Prod.mk.injEq] at heq <;>
      obtain ⟨⟨hra, hca⟩, hrb, hcb⟩ := heq <;> subst hra <;> subst hca <;>
      subst hrb <;> subst hcb
    · obtain ⟨ha, hb, hc, hd8, hdest⟩ := hcond
      refine ⟨hside, Or.inl ⟨d, ?_, by omega, by omega, by omega, by omega, hdest⟩⟩
      rw [specDirs_eq_pieceDirs hp4]; exact hd
    · obtain ⟨ha, hb, hc, hd8, hmid0, hdest, hsc⟩ := hcond
      have hmr0 : 0 ≤ (r1 : Int) + d.1 := by omega
      have hmr8 : (r1 : Int) + d.1 < 8 := by omega
      have hmc0 : 0 ≤ (c1 : Int) + d.2 := by omega
      have hmc8 : (c1 : Int) + d.2 < 8 := by omega
      refine ⟨hside, Or.inr ⟨d, ?_, by omega, by omega, by omega, by omega, hdest,
        hmr0, hmr8, hmc0, hmc8, ?_⟩⟩
      · rw [specDirs_eq_pieceDirs hp4]; exact hd
      · exact opposing_of_not_same hs hside (getCell_le_four board hv _ _) hmid0 hsc
  · rintro ⟨hside, hcase⟩
    have hptag : getCell board r1 c1 ≠ 0 := by
      rcases sidePiece_cases side hs _ hside with h | h | h | h <;> omega
    obtain ⟨hr8, hc8⟩ := getCell_ne_zero_lt board hw hptag
    rw [mem_get_all_moves_iff]
    refine ⟨r1, hr8, c1, hc8, ?_, ?_⟩
    · rcases hs with rfl | rfl
      · exact Or.inl ⟨rfl, by rw [sidePiece_red] at hside; exact hside⟩
      · exact Or.inr ⟨rfl, by rw [sidePiece_black] at hside; exact hside⟩
    · rw [mem_possible_moves_iff]
      have hp4 := sidePiece_cases side hs _ hside
      rw [specDirs_eq_pieceDirs hp4] at hcase
      rcases hcase with ⟨d, hd, hr2, hc2, hr28, hc28, hdest⟩ |
        ⟨d, hd, hr2, hc2, hr28, hc28, hdest, hmr0, hmr8, hmc0, hmc8, hopp⟩
      · have e1 : ((r1 : Int) + d.1).toNat = r2 := by omega
        have e2 : ((c1 : Int) + d.2).toNat = c2 := by omega
        refine ⟨d, hd, Or.inl ⟨⟨by omega, by omega, by omega, by omega, ?_⟩, ?_⟩⟩
        · rw [e1, e2]; exact hdest
        · rw [e1, e2]
      · have e1 : ((r1 : Int) + 2 * d.1).toNat = r2 := by omega
        have e2 : ((c1 : Int) + 2 * d.2).toNat = c2 := by omega
        have hmid0 : getCell board ((r1 : Int) + d.1).toNat ((c1 : Int) + d.2).toNat ≠ 0 := by
          rcases hs with rfl | rfl
          · rw [opposingPiece_red] at hopp; omega
          · rw [opposingPiece_black] at hopp; omega
        refine ⟨d, hd, Or.inr ⟨⟨by omega, by omega, by omega, by omega, hmid0, ?_, ?_⟩, ?_⟩⟩
        · rw [e1, e2]; exact hdest
        · exact not_same_of_opposing hs hside hopp
        · rw [e1, e2]

/-- C5: a step move appears in the generator's output iff the origin holds
a piece of the side, the delta is in the piece's direction set, and the
destination is on-board and Empty; a jump appears iff additionally the
intermediate square is on-board and holds an opposing piece and the landing
square is on-board and Empty; consequently every generated move leaves a
friendly origin for an on-board Empty destination. -/
theorem claim_C5_generator (board : Board) (hw : WF board) (hv : ValidTags board)
    (side : String) (hs : side = "red" ∨ side = "black") (r1 c1 r2 c2 : Nat) :
    ((((r1, c1), (r2, c2)) : Move) ∈ get_all_moves board side ↔
      sidePiece side (getCell board r1 c1) ∧
      ((∃ d ∈ specDirs (getCell board r1 c1),
          (r2 : Int) = (r1 : Int) + d.1 ∧ (c2 : Int) = (c1 : Int) + d.2 ∧
          r2 < 8 ∧ c2 < 8 ∧ getCell board r2 c2 = 0) ∨
       (∃ d ∈ specDirs (getCell board r1 c1),
          (r2 : Int) = (r1 : Int) + 2 * d.1 ∧ (c2 : Int) = (c1 : Int) + 2 * d.2 ∧
          r2 < 8 ∧ c2 < 8 ∧ getCell board r2 c2 = 0 ∧
          0 ≤ (r1 : Int) + d.1 ∧ (r1 : Int) + d.1 < 8 ∧
          0 ≤ (c1 : Int) + d.2 ∧ (c1 : Int) + d.2 < 8 ∧
          opposingPiece side
            (getCell board ((r1 : Int) + d.1).toNat ((c1 : Int) + d.2).toNat)))) ∧
    (∀ mv ∈ get_all_moves board side,
      sidePiece side (getCell board mv.1.1 mv.1.2) ∧
      mv.2.1 < 8 ∧ mv.2.2 < 8 ∧ getCell board mv.2.1 mv.2.2 = 0) := by
  refine ⟨mem_get_all_moves_characterization board hw hv side hs r1 c1 r2 c2, ?_⟩
  rintro ⟨⟨a, b2⟩, x, y⟩ hmv
  obtain ⟨hside, hcase⟩ :=
    (mem_get_all_moves_characterization board hw hv side hs a b2 x y).mp hmv
  refine ⟨hside, ?_⟩
  rcases hcase with ⟨d, _, _, _, hx, hy, hdest⟩ | ⟨d, _, _, _, hx, hy, hdest, _⟩
  · exact ⟨hx, hy, hdest⟩
  · exact ⟨hx, hy, hdest⟩

theorem claim_C5_generator_witness :
    WF initial_board ∧ ValidTags initial_board ∧
    ("red" = "red" ∨ "red" = "black") ∧
    (((((2, 0), (1, 1)) : Move) ∈ get_all_moves initial_board "red" ↔
      sidePiece "red" (getCell initial_board 2 0) ∧
      ((∃ d ∈ specDirs (getCell initial_board 2 0),
          ((1 : Nat) : Int) = ((2 : Nat) : Int) + d.1 ∧
          ((1 : Nat) : Int) = ((0 : Nat) : Int) + d.2 ∧
          (1 : Nat) < 8 ∧ (1 : Nat) < 8 ∧ getCell initial_board 1 1 = 0) ∨
       (∃ d ∈ specDirs (getCell initial_board 2 0),
          ((1 : Nat) : Int) = ((2 : Nat) : Int) + 2 * d.1 ∧
          ((1 : Nat) : Int) = ((0 : Nat) : Int) + 2 * d.2 ∧
          (1 : Nat) < 8 ∧ (1 : Nat) < 8 ∧ getCell initial_board 1 1 = 0 ∧
          0 ≤ ((2 : Nat) : Int) + d.1 ∧ ((2 : Nat) : Int) + d.1 < 8 ∧
          0 ≤ ((0 : Nat) : Int) + d.2 ∧ ((0 : Nat) : Int) + d.2 < 8 ∧
          opposingPiece "red"
            (getCell initial_board (((2 : Nat) : Int) + d.1).toNat
              (((0 : Nat) : Int) + d.2).toNat)))) ∧
    (∀ mv ∈ get_all_moves initial_board "red",
      sidePiece "red" (getCell initial_board mv.1.1 mv.1.2) ∧
      mv.2.1 < 8 ∧ mv.2.2 < 8 ∧ getCell initial_board mv.2.1 mv.2.2 = 0)) :=
  ⟨by decide, by decide, Or.inl rfl,
    claim_C5_generator initial_board (by decide) (by decide) "red" (Or.inl rfl) 2 0 1 1⟩

/-! ### Tag validity, side and piece-count invariants of the transition -/

lemma ValidTags_setCell (b : Board) (hv : ValidTags b) (r c v : Nat) (hv4 : v ≤ 4) :
    ValidTags (setCell b r c v) := by
  intro row hrow cell hcell
  rcases List.mem_or_eq_of_mem_set hrow with h | rfl
  · exact hv _ h _ hcell
  · rcases List.mem_or_eq_of_mem_set hcell with h2 | rfl
    · rcases Nat.lt_or_ge r b.length with hrb | hrb
      · refine hv _ ?_ _ h2
        rw [List.getD_eq_getElem?_getD, List.getElem?_eq_getElem hrb]
        exact List.getElem_mem hrb
      · rw [List.getD_eq_getElem?_getD, List.getElem?_eq_none hrb] at h2
        simp at h2
    · exact hv4

lemma ValidTags_apply_move (b : Board) (hv : ValidTags b) (r1 c1 r2 c2 : Nat) :
    ValidTags (apply_move b ((r1, c1), (r2, c2))) := by
  have h4 := getCell_le_four b hv r1 c1
  have t1 := ValidTags_setCell b hv r1 c1 0 (by omega)
  have t2 := ValidTags_setCell _ t1 r2 c2 _ h4
  have t3 := ValidTags_setCell _ t2 ((r1 + r2) / 2) ((c1 + c2) / 2) 0 (by omega)
  rw [apply_move_eq]
  split_ifs
  · exact ValidTags_setCell _ t3 r2 c2 3 (by omega)
  · exact ValidTags_setCell _ t2 r2 c2 3 (by omega)
  · exact ValidTags_setCell _ t3 r2 c2 4 (by omega)
  · exact ValidTags_setCell _ t2 r2 c2 4 (by omega)
  · exact t3
  · exact t2

lemma same_color_promoted {p : Nat} (hp : p = 1 ∨ p = 2 ∨ p = 3 ∨ p = 4) (r2 : Nat) :
    same_color p (promoted p r2) = true := by
  unfold promoted same_color
  rcases hp with rfl | rfl | rfl | rfl <;> split_ifs <;> first | rfl | omega

lemma countP_set (row : List Nat) (c : Nat) (hc : c < row.length) (v : Nat)
    (p : Nat → Bool) :
    (row.set c v).countP p + (if p (row.getD c 0) then 1 else 0) =
      row.countP p + (if p v then 1 else 0) := by
  induction row generalizing c with
  | nil => simp at hc
  | cons x xs ih =>
    cases c with
    | zero => simp [List.countP_cons]; omega
    | succ c' =>
      have := ih c' (by simpa using hc)
      rw [show (x :: xs).set (c' + 1) v = x :: xs.set c' v from rfl]
      simp only [List.countP_cons, List.getD_cons_succ]
      omega

lemma sum_set_nat (l : List Nat) (i : Nat) (hi : i < l.length) (x : Nat) :
    (l.set i x).sum + l.getD i 0 = l.sum + x := by
  induction l generalizing i with
  | nil => simp at hi
  | cons y ys ih =>
    cases i with
    | zero => simp [List.sum_cons]; omega
    | succ i' =>
      have := ih i' (by simpa using hi)
      rw [show (y :: ys).set (i' + 1) x = y :: ys.set i' x from rfl]
      simp only [List.sum_cons, List.getD_cons_succ]
      omega

lemma countPieces_setCell (b : Board) (hw : WF b) {r c : Nat} (hr : r < 8) (hc : c < 8)
    (v : Nat) :
    countPieces (setCell b r c v) + (if getCell b r c ≠ 0 then 1 else 0) =
      countPieces b + (if v ≠ 0 then 1 else 0) := by
  obtain ⟨hlen, hrow⟩ := hw
  have hrb : r < b.length := by omega
  have hrowlen : (b.getD r []).length = 8 := by
    refine hrow _ ?_
    rw [List.getD_eq_getElem?_getD, List.getElem?_eq_getElem hrb]
    exact List.getElem_mem hrb
  unfold countPieces setCell
  rw [List.map_set]
  have hsum := sum_set_nat (b.map (fun row => row.countP (fun x => x ≠ 0))) r
    (by simpa using hrb) (((b.getD r []).set c v).countP (fun x => x ≠ 0))
  have hgd : (b.map (fun row => row.countP (fun x => x ≠ 0))).getD r 0 =
      (b.getD r []).countP (fun x => x ≠ 0) := by
    rw [List.getD_eq_getElem?_getD, List.getD_eq_getElem?_getD,
      List.getElem?_eq_getElem hrb, List.getElem?_eq_getElem (by simpa using hrb)]
    simp
  have hcp := countP_set (b.getD r []) c (by omega) v (fun x => x ≠ 0)
  have hcell : getCell b r c = (b.getD r []).getD c 0 := rfl
  rw [hgd] at hsum
  rw [hcell]
  simp only [decide_eq_true_eq] at hcp
  omega

lemma countPieces_apply_move (b : Board) (hw : WF b) {r1 c1 r2 c2 : Nat}
    (h1 : r1 < 8) (h2 : c1 < 8) (h3 : r2 < 8) (h4 : c2 < 8)
    (hr12 : r1 ≠ r2) (hpc : getCell b r1 c1 ≠ 0) (hdest : getCell b r2 c2 = 0) :
    countPieces (apply_move b ((r1, c1), (r2, c2))) +
      (if ((r2 : Int) - (r1 : Int)).natAbs = 2 then
        (if getCell b ((r1 + r2) / 2) ((c1 + c2) / 2) ≠ 0 then 1 else 0) else 0) =
      countPieces b := by
  have hmidr : (r1 + r2) / 2 < 8 := by omega
  have hmidc : (c1 + c2) / 2 < 8 := by omega
  have hw1 : WF (setCell b r1 c1 0) := WF_setCell b hw r1 c1 0
  have hw2 : WF (setCell (setCell b r1 c1 0) r2 c2 (getCell b r1 c1)) :=
    WF_setCell _ hw1 r2 c2 _
  have hw3 : WF (setCell (setCell (setCell b r1 c1 0) r2 c2 (getCell b r1 c1))
      ((r1 + r2) / 2) ((c1 + c2) / 2) 0) := WF_setCell _ hw2 _ _ 0
  have e1 := countPieces_setCell b hw h1 h2 0
  rw [if_pos hpc, if_neg (by simp)] at e1
  have g1 : getCell (setCell b r1 c1 0) r2 c2 = getCell b r2 c2 :=
    getCell_setCell_ne b (Or.inl hr12) 0
  have e2 := countPieces_setCell _ hw1 h3 h4 (getCell b r1 c1)
  rw [g1, hdest, if_neg (by simp), if_pos hpc] at e2
  have gdest : getCell (setCell (setCell b r1 c1 0) r2 c2 (getCell b r1 c1)) r2 c2 =
      getCell b r1 c1 := getCell_setCell_same _ hw1 h3 h4 _
  rw [apply_move_eq]
  by_cases hj : ((r2 : Int) - (r1 : Int)).natAbs = 2
  · simp only [if_pos hj]
    have hmr1 : (r1 + r2) / 2 ≠ r1 := by omega
    have hmr2 : (r1 + r2) / 2 ≠ r2 := by omega
    have g2 : getCell (setCell (setCell b r1 c1 0) r2 c2 (getCell b r1 c1))
        ((r1 + r2) / 2) ((c1 + c2) / 2) = getCell b ((r1 + r2) / 2) ((c1 + c2) / 2) := by
      rw [getCell_setCell_ne _ (Or.inl (fun h => hmr2 h.symm)) _,
        getCell_setCell_ne _ (Or.inl (fun h => hmr1 h.symm)) _]
    have e3 := countPieces_setCell _ hw2 hmidr hmidc 0
    have z0 : (if (0 : Nat) ≠ 0 then (1 : Nat) else 0) = 0 := by simp
    rw [g2, z0] at e3
    set F := (if getCell b ((r1 + r2) / 2) ((c1 + c2) / 2) ≠ 0 then (1 : Nat) else 0)
      with hF
    have gd3 : getCell (setCell (setCell (setCell b r1 c1 0) r2 c2 (getCell b r1 c1))
        ((r1 + r2) / 2) ((c1 + c2) / 2) 0) r2 c2 = getCell b r1 c1 := by
      rw [getCell_setCell_ne _ (Or.inl hmr2) _, gdest]
    split_ifs with hp1 hp2
    · have e4 := countPieces_setCell _ hw3 h3 h4 3
      rw [gd3, if_pos hpc, if_pos (by simp)] at e4
      omega
    · have e4 := countPieces_setCell _ hw3 h3 h4 4
      rw [gd3, if_pos hpc, if_pos (by simp)] at e4
      omega
    · omega
  · simp only [if_neg hj]
    split_ifs with hp1 hp2
    · have e4 := countPieces_setCell _ hw2 h3 h4 3
      rw [gdest, if_pos hpc, if_pos (by simp)] at e4
      omega
    · have e4 := countPieces_setCell _ hw2 h3 h4 4
      rw [gdest, if_pos hpc, if_pos (by simp)] at e4
      omega
    · omega

/-- C10: applying any generated move preserves the 8×8 shape and the five
valid tags, keeps the moved piece's side (via the source's own
`same_color`), and the move is a step (row delta 1, piece count unchanged)
or a jump (row delta 2, piece count decreased by exactly one) — so the
number of occupied cells never increases. -/
theorem claim_C10_invariants (board : Board) (hw : WF board) (hv : ValidTags board)
    (side : String) (hs : side = "red" ∨ side = "black") (mv : Move)
    (hmv : mv ∈ get_all_moves board side) :
    WF (apply_move board mv) ∧ ValidTags (apply_move board mv) ∧
    same_color (getCell board mv.1.1 mv.1.2)
      (getCell (apply_move board mv) mv.2.1 mv.2.2) = true ∧
    (((mv.2.1 : Int) - (mv.1.1 : Int)).natAbs = 1 ∨
     ((mv.2.1 : Int) - (mv.1.1 : Int)).natAbs = 2) ∧
    (((mv.2.1 : Int) - (mv.1.1 : Int)).natAbs = 1 →
      countPieces (apply_move board mv) = countPieces board) ∧
    (((mv.2.1 : Int) - (mv.1.1 : Int)).natAbs = 2 →
      countPieces (apply_move board mv) + 1 = countPieces board) := by
  obtain ⟨⟨r1, c1⟩, r2, c2⟩ := mv
  dsimp only
  obtain ⟨hside, hcase⟩ :=
    (mem_get_all_moves_characterization board hw hv side hs r1 c1 r2 c2).mp hmv
  have hp4 := sidePiece_cases side hs _ hside
  have hpc0 : getCell board r1 c1 ≠ 0 := by omega
  obtain ⟨hr8, hc8⟩ := getCell_ne_zero_lt board hw hpc0
  rw [specDirs_eq_pieceDirs hp4] at hcase
  have hcolor : ∀ hw2 : WF board, ∀ h3 : r2 < 8, ∀ h4 : c2 < 8,
      same_color (getCell board r1 c1)
        (getCell (apply_move board ((r1, c1), (r2, c2))) r2 c2) = true := by
    intro hw2 h3 h4
    rw [getCell_apply_move board hw hr8 hc8 h3 h4, if_pos ⟨rfl, rfl⟩]
    exact same_color_promoted hp4 r2
  rcases hcase with ⟨d, hd, hr2, hc2, hr28, hc28, hdest⟩ |
    ⟨d, hd, hr2, hc2, hr28, hc28, hdest, hmr0, hmr8, hmc0, hmc8, hopp⟩
  · have hdv := pieceDirs_vals hd
    have hshape : ((r2 : Int) - (r1 : Int)).natAbs = 1 := by omega
    have hr12 : r1 ≠ r2 := by omega
    have hcount := countPieces_apply_move board hw hr8 hc8 hr28 hc28 hr12 hpc0 hdest
    rw [if_neg (by omega)] at hcount
    refine ⟨WF_apply_move board hw r1 c1 r2 c2, ValidTags_apply_move board hv r1 c1 r2 c2,
      hcolor hw hr28 hc28, Or.inl hshape, fun _ => by omega, fun h2 => by omega⟩
  · have hdv := pieceDirs_vals hd
    have hshape : ((r2 : Int) - (r1 : Int)).natAbs = 2 := by omega
    have hr12 : r1 ≠ r2 := by omega
    have emr : ((r1 : Int) + d.1).toNat = (r1 + r2) / 2 := by omega
    have emc : ((c1 : Int) + d.2).toNat = (c1 + c2) / 2 := by omega
    have hmid0 : getCell board ((r1 + r2) / 2) ((c1 + c2) / 2) ≠ 0 := by
      rw [← emr, ← emc]
      rcases hs with rfl | rfl
      · rw [opposingPiece_red] at hopp; omega
      · rw [opposingPiece_black] at hopp; omega
    have hcount := countPieces_apply_move board hw hr8 hc8 hr28 hc28 hr12 hpc0 hdest
    rw [if_pos hshape, if_pos hmid0] at hcount
    refine ⟨WF_apply_move board hw r1 c1 r2 c2, ValidTags_apply_move board hv r1 c1 r2 c2,
      hcolor hw hr28 hc28, Or.inr hshape, fun h1 => by omega, fun _ => by omega⟩

theorem claim_C10_invariants_witness :
    WF jumpBoard ∧ ValidTags jumpBoard ∧ ("red" = "red" ∨ "red" = "black") ∧
    ((((3, 3), (1, 1)) : Move) ∈ get_all_moves jumpBoard "red") ∧
    (WF (apply_move jumpBoard ((3, 3), (1, 1))) ∧
     ValidTags (apply_move jumpBoard ((3, 3), (1, 1))) ∧
     same_color (getCell jumpBoard 3 3)
       (getCell (apply_move jumpBoard ((3, 3), (1, 1))) 1 1) = true ∧
     (((1 : Int) - (3 : Int)).natAbs = 1 ∨ ((1 : Int) - (3 : Int)).natAbs = 2) ∧
     (((1 : Int) - (3 : Int)).natAbs = 1 →
       countPieces (apply_move jumpBoard ((3, 3), (1, 1))) = countPieces jumpBoard) ∧
     (((1 : Int) - (3 : Int)).natAbs = 2 →
       countPieces (apply_move jumpBoard ((3, 3), (1, 1))) + 1 = countPieces jumpBoard)) :=
  ⟨by decide, by decide, Or.inl rfl, by decide,
    claim_C10_invariants jumpBoard (by decide) (by decide) "red" (Or.inl rfl)
      ((3, 3), (1, 1)) (by decide)⟩

/-! ### Fail-soft alpha-beta versus full minimax -/

/-- Fold of the max step over a move list, starting from `init` (the value
an unpruned maximizing node computes). -/
def foldMaxFrom (g : Board → Score) (board : Board) (init : Score) : List Move → Score :=
  List.foldl (fun v mv => max v (g (apply_move board mv))) init

/-- Fold of the min step over a move list, starting from `init`. -/
def foldMinFrom (g : Board → Score) (board : Board) (init : Score) : List Move → Score :=
  List.foldl (fun v mv => min v (g (apply_move board mv))) init

lemma foldMaxFrom_cons (g : Board → Score) (board : Board) (init : Score) (mv : Move)
    (rest : List Move) :
    foldMaxFrom g board init (mv :: rest) =
      foldMaxFrom g board (max init (g (apply_move board mv))) rest := rfl

lemma foldMinFrom_cons (g : Board → Score) (board : Board) (init : Score) (mv : Move)
    (rest : List Move) :
    foldMinFrom g board init (mv :: rest) =
      foldMinFrom g board (min init (g (apply_move board mv))) rest := rfl

lemma foldMaxFrom_init (g : Board → Score) (board : Board) :
    ∀ (l : List Move) (init : Score),
      foldMaxFrom g board init l = max init (foldMaxFrom g board ⊥ l) := by
  intro l
  induction l with
  | nil => intro init; simp [foldMaxFrom]
  | cons mv rest ih =>
    intro init
    rw [foldMaxFrom_cons, foldMaxFrom_cons, ih, ih (max ⊥ _)]
    rw [max_comm (⊥ : Score) (g (apply_move board mv)), max_bot_right]
    rw [← max_assoc]

lemma foldMinFrom_init (g : Board → Score) (board : Board) :
    ∀ (l : List Move) (init : Score),
      foldMinFrom g board init l = min init (foldMinFrom g board ⊤ l) := by
  intro l
  induction l with
  | nil => intro init; simp [foldMinFrom]
  | cons mv rest ih =>
    intro init
    rw [foldMinFrom_cons, foldMinFrom_cons, ih, ih (min ⊤ _)]
    rw [min_comm (⊤ : Score) (g (apply_move board mv)), min_top_right]
    rw [← min_assoc]

lemma le_foldMaxFrom (g : Board → Score) (board : Board) (l : List Move) (init : Score) :
    init ≤ foldMaxFrom g board init l := by
  rw [foldMaxFrom_init]
  exact le_max_left _ _

lemma foldMinFrom_le (g : Board → Score) (board : Board) (l : List Move) (init : Score) :
    foldMinFrom g board init l ≤ init := by
  rw [foldMinFrom_init]
  exact min_le_left _ _

lemma mmMaxLoop_fst (g : Board → Score) (board : Board) :
    ∀ (moves : List Move) (value : Score) (best : Option Move),
      (mmMaxLoop g board moves value best).1 = foldMaxFrom g board value moves := by
  intro moves
  induction moves with
  | nil => intro value best; rfl
  | cons mv rest ih =>
    intro value best
    rw [foldMaxFrom_cons, mmMaxLoop]
    rcases lt_or_le value (g (apply_move board mv)) with h | h
    · rw [if_pos h, ih, max_eq_right h.le]
    · rw [if_neg (not_lt.2 h), ih, max_eq_left h]

lemma mmMinLoop_fst (g : Board → Score) (board : Board) :
    ∀ (moves : List Move) (value : Score) (best : Option Move),
      (mmMinLoop g board moves value best).1 = foldMinFrom g board value moves := by
  intro moves
  induction moves with
  | nil => intro value best; rfl
  | cons mv rest ih =>
    intro value best
    rw [foldMinFrom_cons, mmMinLoop]
    rcases lt_or_le (g (apply_move board mv)) value with h | h
    · rw [if_pos h, ih, min_eq_right h.le]
    · rw [if_neg (not_lt.2 h), ih, min_eq_left h]

lemma maxLoop_spec (f : Score → Score → Board → Score) (g : Board → Score)
    (board : Board) (beta : Score)
    (Hf : ∀ (a : Score) (bd : Board), a < beta →
      (f a beta bd ≤ a → g bd ≤ f a beta bd) ∧
      (a < f a beta bd → f a beta bd < beta → f a beta bd = g bd) ∧
      (beta ≤ f a beta bd → f a beta bd ≤ g bd)) :
    ∀ (moves : List Move) (value alpha alpha0 : Score) (best : Option Move),
      alpha0 < beta → alpha = max alpha0 value → alpha < beta →
      ((maxLoop f board beta moves value alpha best).1 ≤ alpha0 →
        foldMaxFrom g board value moves ≤ (maxLoop f board beta moves value alpha best).1) ∧
      (alpha0 < (maxLoop f board beta moves value alpha best).1 →
        (maxLoop f board beta moves value alpha best).1 < beta →
        (maxLoop f board beta moves value alpha best).1 = foldMaxFrom g board value moves) ∧
      (beta ≤ (maxLoop f board beta moves value alpha best).1 →
        (maxLoop f board beta moves value alpha best).1 ≤ foldMaxFrom g board value moves) := by
  intro moves
  induction moves with
  | nil =>
    intro value alpha alpha0 best h0 ha hab
    have hvb : value < beta := lt_of_le_of_lt (le_max_right alpha0 value) (ha ▸ hab)
    exact ⟨fun _ => le_refl _, fun _ _ => rfl, fun hb => absurd hb (not_le.2 hvb)⟩
  | cons mv rest ih =>
    intro value alpha alpha0 best h0 ha hab
    have hvb : value < beta := lt_of_le_of_lt (le_max_right alpha0 value) (ha ▸ hab)
    have hfc := Hf alpha (apply_move board mv) hab
    simp only [maxLoop]
    set c := f alpha beta (apply_move board mv) with hc
    set G := g (apply_move board mv) with hG
    have hv' : (if value < c then c else value) = max value c := by
      rcases lt_or_le value c with h | h
      · rw [if_pos h, max_eq_right h.le]
      · rw [if_neg (not_lt.2 h), max_eq_left h]
    rw [hv']
    have hmm : max value (max value c) = max value c := by rw [← max_assoc, max_self]
    have halpha' : max alpha (max value c) = max alpha0 (max value c) := by
      rw [ha, max_assoc, hmm]
    rw [foldMaxFrom_cons, ← hG]
    by_cases hcut : beta ≤ max alpha (max value c)
    · rw [if_pos hcut]
      dsimp only
      have hbv : beta ≤ max value c := by
        rcases le_or_lt beta (max value c) with h | h
        · exact h
        · exact absurd hcut (not_le.2 (max_lt hab h))
      have hvc : value < c := by
        by_contra hvc
        rw [max_eq_left (not_lt.1 hvc)] at hbv
        exact absurd hbv (not_le.2 hvb)
      have hceq : max value c = c := max_eq_right hvc.le
      refine ⟨?_, ?_, ?_⟩
      · intro hres
        exact absurd (lt_of_lt_of_le h0 hbv) (not_lt.2 hres)
      · intro _ hres2
        exact absurd (lt_of_le_of_lt hbv hres2) (lt_irrefl beta)
      · intro _
        have hcG : c ≤ G := hfc.2.2 (by rw [← hceq]; exact hbv)
        calc max value c ≤ max value G :=
              max_le (le_max_left _ _) (le_trans hcG (le_max_right _ _))
          _ ≤ foldMaxFrom g board (max value G) rest := le_foldMaxFrom _ _ _ _
    · rw [if_neg hcut]
      have hab' : max alpha (max value c) < beta := not_le.1 hcut
      have IH := ih (max value c) (max alpha (max value c)) alpha0
        (if value < c then some mv else best) h0 halpha'.symm.symm hab'
      rcases le_or_lt c alpha with hi | hgt
      · have hGc : G ≤ c := hfc.1 hi
        have hmaxG_le : max value G ≤ max value c :=
          max_le (le_max_left _ _) (le_trans hGc (le_max_right _ _))
        obtain ⟨I1, I2, I3⟩ := IH
        rw [foldMaxFrom_init g board rest (max value G)]
        rw [foldMaxFrom_init g board rest (max value c)] at I1 I2 I3
        set FR := foldMaxFrom g board ⊥ rest with hFRdef
        set res := (maxLoop f board beta rest (max value c) (max alpha (max value c))
          (if value < c then some mv else best)).1 with hresdef
        refine ⟨?_, ?_, ?_⟩
        · intro h
          have hres := I1 h
          exact max_le (le_trans hmaxG_le (le_trans (le_max_left _ _) hres))
            (le_trans (le_max_right _ _) hres)
        · intro h1 h2
          have hI2 := I2 h1 h2
          rcases lt_or_le value c with hvc | hvc
          · have hcal0 : c ≤ alpha0 := by
              rw [ha] at hi
              rcases le_total value alpha0 with h | h
              · rwa [max_eq_left h] at hi
              · rw [max_eq_right h] at hi
                exact absurd (lt_of_lt_of_le hvc hi) (lt_irrefl value)
            rw [max_eq_right hvc.le] at hI2
            have hresFR : res = FR := by
              rcases max_choice c FR with h | h
              · rw [h] at hI2
                exact absurd (lt_of_lt_of_le h1 (hI2.le.trans hcal0)) (lt_irrefl alpha0)
              · rw [h] at hI2
                exact hI2
            have hmvG : max value G ≤ alpha0 :=
              max_le (le_trans hvc.le hcal0) (le_trans hGc hcal0)
            rw [hresFR]
            exact (max_eq_right (le_of_lt (lt_of_le_of_lt hmvG (hresFR ▸ h1)))).symm
          · rw [max_eq_left hvc] at hI2
            rw [max_eq_left (le_trans hGc hvc)]
            exact hI2
        · intro h3
          have hI3 := I3 h3
          have hva : value ≤ alpha := by rw [ha]; exact le_max_right _ _
          have hv2a : max value c ≤ alpha := max_le hva hi
          have hres_le_FR : res ≤ FR := by
            rcases max_choice (max value c) FR with h | h
            · rw [h] at hI3
              exact absurd h3 (not_le.2 (lt_of_le_of_lt (hI3.trans hv2a) hab))
            · rw [h] at hI3
              exact hI3
          exact le_trans hres_le_FR (le_max_right _ _)
      · rcases lt_or_le c beta with hlt | hge
        · have hcG : c = G := hfc.2.1 hgt hlt
          rw [← hcG]
          exact IH
        · exact absurd
            (le_trans hge (le_trans (le_max_right value c) (le_max_right alpha _))) hcut

lemma minLoop_spec (f : Score → Score → Board → Score) (g : Board → Score)
    (board : Board) (alpha : Score)
    (Hf : ∀ (b : Score) (bd : Board), alpha < b →
      (f alpha b bd ≤ alpha → g bd ≤ f alpha b bd) ∧
      (alpha < f alpha b bd → f alpha b bd < b → f alpha b bd = g bd) ∧
      (b ≤ f alpha b bd → f alpha b bd ≤ g bd)) :
    ∀ (moves : List Move) (value beta beta0 : Score) (best : Option Move),
      alpha < beta0 → beta = min beta0 value → alpha < beta →
      ((minLoop f board alpha moves value beta best).1 ≤ alpha →
        foldMinFrom g board value moves ≤ (minLoop f board alpha moves value beta best).1) ∧
      (alpha < (minLoop f board alpha moves value beta best).1 →
        (minLoop f board alpha moves value beta best).1 < beta0 →
        (minLoop f board alpha moves value beta best).1 = foldMinFrom g board value moves) ∧
      (beta0 ≤ (minLoop f board alpha moves value beta best).1 →
        (minLoop f board alpha moves value beta best).1 ≤ foldMinFrom g board value moves) := by
  intro moves
  induction moves with
  | nil =>
    intro value beta beta0 best h0 hb hab
    have hva : alpha < value := lt_of_lt_of_le hab (hb ▸ min_le_right beta0 value)
    exact ⟨fun hle => absurd hle (not_le.2 hva), fun _ _ => rfl, fun _ => le_refl _⟩
  | cons mv rest ih =>
    intro value beta beta0 best h0 hb hab
    have hva : alpha < value := lt_of_lt_of_le hab (hb ▸ min_le_right beta0 value)
    have hvbeta : beta ≤ value := hb ▸ min_le_right beta0 value
    have hfc := Hf beta (apply_move board mv) hab
    simp only [minLoop]
    set c := f alpha beta (apply_move board mv) with hc
    set G := g (apply_move board mv) with hG
    have hv' : (if c < value then c else value) = min value c := by
      rcases lt_or_le c value with h | h
      · rw [if_pos h, min_eq_right h.le]
      · rw [if_neg (not_lt.2 h), min_eq_left h]
    rw [hv']
    have hmm : min value (min value c) = min value c := by rw [← min_assoc, min_self]
    have hbeta' : min beta (min value c) = min beta0 (min value c) := by
      rw [hb, min_assoc, hmm]
    rw [foldMinFrom_cons, ← hG]
    by_cases hcut : min beta (min value c) ≤ alpha
    · rw [if_pos hcut]
      dsimp only
      have hbv : min value c ≤ alpha := by
        rcases le_or_lt (min value c) alpha with h | h
        · exact h
        · exact absurd hcut (not_le.2 (lt_min hab h))
      have hvc : c < value := by
        by_contra hvc
        rw [min_eq_left (not_lt.1 hvc)] at hbv
        exact absurd hbv (not_le.2 hva)
      have hceq : min value c = c := min_eq_right hvc.le
      refine ⟨?_, ?_, ?_⟩
      · intro _
        have hGc : G ≤ c := hfc.1 (by rw [← hceq]; exact hbv)
        calc foldMinFrom g board (min value G) rest ≤ min value G :=
              foldMinFrom_le _ _ _ _
          _ ≤ min value c :=
              le_min (min_le_left _ _) (le_trans (min_le_right _ _) hGc)
      · intro hres _
        exact absurd (lt_of_lt_of_le hres hbv) (lt_irrefl alpha)
      · intro hres
        exact absurd (lt_of_lt_of_le h0 (le_trans hres hbv)) (lt_irrefl alpha)
    · rw [if_neg hcut]
      have hab' : alpha < min beta (min value c) := not_le.1 hcut
      have IH := ih (min value c) (min beta (min value c)) beta0
        (if c < value then some mv else best) h0 hbeta'.symm.symm hab'
      rcases le_or_lt beta c with hge | hlt
      · have hcG : c ≤ G := hfc.2.2 hge
        obtain ⟨I1, I2, I3⟩ := IH
        rw [foldMinFrom_init g board rest (min value G)]
        rw [foldMinFrom_init g board rest (min value c)] at I1 I2 I3
        set FR := foldMinFrom g board ⊤ rest with hFRdef
        set res := (minLoop f board alpha rest (min value c) (min beta (min value c))
          (if c < value then some mv else best)).1 with hresdef
        have hv'beta : beta ≤ min value c := le_min hvbeta hge
        refine ⟨?_, ?_, ?_⟩
        · intro h
          have hI1 := I1 h
          have hres_ge_FR : FR ≤ res := by
            rcases min_choice (min value c) FR with hch | hch
            · rw [hch] at hI1
              have : alpha < res := lt_of_lt_of_le (lt_of_lt_of_le hab hv'beta) hI1
              exact absurd h (not_le.2 this)
            · rw [hch] at hI1
              exact hI1
          exact le_trans (min_le_right _ _) hres_ge_FR
        · intro h1 h2
          have hI2 := I2 h1 h2
          rcases lt_or_le c value with hvc | hvc
          · have hcbe0 : beta0 ≤ c := by
              rw [hb] at hge
              rcases le_total beta0 value with h | h
              · rwa [min_eq_left h] at hge
              · rw [min_eq_right h] at hge
                exact absurd (lt_of_le_of_lt hge hvc) (lt_irrefl value)
            rw [min_eq_right hvc.le] at hI2
            have hresFR : res = FR := by
              rcases min_choice c FR with h | h
              · rw [h] at hI2
                have hb0res : beta0 ≤ res := hI2.symm ▸ hcbe0
                exact absurd h2 (not_lt.2 hb0res)
              · rw [h] at hI2
                exact hI2
            have hmvG : beta0 ≤ min value G := by
              refine le_min ?_ (le_trans hcbe0 hcG)
              exact le_trans hcbe0 hvc.le
            rw [hresFR]
            refine (min_eq_right ?_).symm
            exact le_of_lt (lt_of_lt_of_le (hresFR ▸ h2) hmvG)
          · rw [min_eq_left hvc] at hI2
            rw [min_eq_left (le_trans hvc hcG)]
            exact hI2
        · intro h3
          have hI3 := I3 h3
          rw [le_min_iff] at hI3 ⊢
          obtain ⟨hI3a, hI3b⟩ := hI3
          rw [le_min_iff] at hI3a
          exact ⟨le_min hI3a.1 (le_trans hI3a.2 hcG), hI3b⟩
      · rcases le_or_lt c alpha with hle | hgt
        · exact absurd (le_trans (min_le_right beta _) (le_trans (min_le_right value c) hle))
            hcut
        · have hcG : c = G := hfc.2.1 hgt hlt
          rw [← hcG]
          exact IH

lemma alpha_beta_succ_true (d : Nat) (b : Board) (alpha beta : Score)
    (h : get_all_moves b "red" ≠ []) :
    alpha_beta (d + 1) b alpha beta true =
      maxLoop (fun a b' bd => (alpha_beta d bd a b' false).1) b beta
        (get_all_moves b "red") ⊥ alpha none := by
  simp [alpha_beta, h]

lemma alpha_beta_succ_false (d : Nat) (b : Board) (alpha beta : Score)
    (h : get_all_moves b "black" ≠ []) :
    alpha_beta (d + 1) b alpha beta false =
      minLoop (fun a b' bd => (alpha_beta d bd a b' true).1) b alpha
        (get_all_moves b "black") ⊤ beta none := by
  simp [alpha_beta, h]

lemma minimax_succ_true (d : Nat) (b : Board) (h : get_all_moves b "red" ≠ []) :
    minimax (d + 1) b true =
      mmMaxLoop (fun bd => (minimax d bd false).1) b (get_all_moves b "red") ⊥ none := by
  simp [minimax, h]

lemma minimax_succ_false (d : Nat) (b : Board) (h : get_all_moves b "black" ≠ []) :
    minimax (d + 1) b false =
      mmMinLoop (fun bd => (minimax d bd true).1) b (get_all_moves b "black") ⊤ none := by
  simp [minimax, h]

/-- Fail-soft alpha-beta invariant: within the window the pruning search is
exact; outside it, it returns a sound bound on the unpruned minimax value. -/
theorem alpha_beta_failsoft : ∀ (d : Nat) (b : Board) (alpha beta : Score) (m : Bool),
    alpha < beta →
    ((alpha_beta d b alpha beta m).1 ≤ alpha →
      (minimax d b m).1 ≤ (alpha_beta d b alpha beta m).1) ∧
    (alpha < (alpha_beta d b alpha beta m).1 → (alpha_beta d b alpha beta m).1 < beta →
      (alpha_beta d b alpha beta m).1 = (minimax d b m).1) ∧
    (beta ≤ (alpha_beta d b alpha beta m).1 →
      (alpha_beta d b alpha beta m).1 ≤ (minimax d b m).1) := by
  intro d
  induction d with
  | zero =>
    intro b alpha beta m hab
    exact ⟨fun _ => le_refl _, fun _ _ => rfl, fun _ => le_refl _⟩
  | succ d ih =>
    intro b alpha beta m hab
    cases m
    · by_cases hmoves : get_all_moves b "black" = []
      · have e1 : alpha_beta (d + 1) b alpha beta false = (⊤, none) := by
          simp [alpha_beta, hmoves]
        have e2 : minimax (d + 1) b false = (⊤, none) := by
          simp [minimax, hmoves]
        rw [e1, e2]
        exact ⟨fun _ => le_refl _, fun _ _ => rfl, fun _ => le_refl _⟩
      · rw [alpha_beta_succ_false d b alpha beta hmoves, minimax_succ_false d b hmoves,
          mmMinLoop_fst]
        exact minLoop_spec (fun a b' bd => (alpha_beta d bd a b' true).1)
          (fun bd => (minimax d bd true).1) b alpha
          (fun b' bd h => ih bd alpha b' true h)
          (get_all_moves b "black") ⊤ beta beta none hab
          (min_eq_left le_top).symm hab
    · by_cases hmoves : get_all_moves b "red" = []
      · have e1 : alpha_beta (d + 1) b alpha beta true = (⊥, none) := by
          simp [alpha_beta, hmoves]
        have e2 : minimax (d + 1) b true = (⊥, none) := by
          simp [minimax, hmoves]
        rw [e1, e2]
        exact ⟨fun _ => le_refl _, fun _ _ => rfl, fun _ => le_refl _⟩
      · rw [alpha_beta_succ_true d b alpha beta hmoves, minimax_succ_true d b hmoves,
          mmMaxLoop_fst]
        exact maxLoop_spec (fun a b' bd => (alpha_beta d bd a b' false).1)
          (fun bd => (minimax d bd false).1) b beta
          (fun a bd h => ih bd a beta false h)
          (get_all_moves b "red") ⊥ alpha alpha none hab
          (max_eq_left bot_le).symm hab

/-- C1: with the standard root window (−infinity, +infinity), the score of
the alpha-beta search equals the score of the unpruned full minimax over
the same tree (same move generator, transition function and evaluator), for
every board, side and depth. -/
theorem claim_C1_alpha_beta_equals_minimax (d : Nat) (b : Board) (m : Bool) :
    (alpha_beta d b ⊥ ⊤ m).1 = (minimax d b m).1 := by
  obtain ⟨h1, h2, h3⟩ := alpha_beta_failsoft d b ⊥ ⊤ m bot_lt_top
  rcases le_or_lt (alpha_beta d b ⊥ ⊤ m).1 ⊥ with hb | hb
  · have hM := h1 hb
    have hb2 : (alpha_beta d b ⊥ ⊤ m).1 = ⊥ := le_bot_iff.1 hb
    have hM2 : (minimax d b m).1 = ⊥ := le_bot_iff.1 (hb2 ▸ hM)
    rw [hb2, hM2]
  · rcases lt_or_le (alpha_beta d b ⊥ ⊤ m).1 ⊤ with ht | ht
    · exact h2 hb ht
    · have hM := h3 ht
      rw [top_le_iff] at ht
      have hMt : (minimax d b m).1 = ⊤ := top_le_iff.1 (ht ▸ hM)
      rw [ht, hMt]

lemma maxLoop_best (f : Score → Score → Board → Score) (g : Board → Score)
    (board : Board)
    (Hf : ∀ (a : Score) (bd : Board), a < ⊤ →
      (a < f a ⊤ bd → f a ⊤ bd < ⊤ → f a ⊤ bd = g bd) ∧
      (⊤ ≤ f a ⊤ bd → f a ⊤ bd ≤ g bd))
    (allMoves : List Move) :
    ∀ (moves : List Move) (value : Score) (best : Option Move),
      (∀ mv ∈ moves, mv ∈ allMoves) →
      ((best = none ∧ value = ⊥) ∨
        ∃ mv, best = some mv ∧ mv ∈ allMoves ∧ g (apply_move board mv) = value) →
      ((maxLoop f board ⊤ moves value value best).2 = none ∧
        (maxLoop f board ⊤ moves value value best).1 = ⊥) ∨
      ∃ mv, (maxLoop f board ⊤ moves value value best).2 = some mv ∧ mv ∈ allMoves ∧
        g (apply_move board mv) = (maxLoop f board ⊤ moves value value best).1 := by
  intro moves
  induction moves with
  | nil =>
    intro value best _ hInv
    exact hInv
  | cons mv rest ih =>
    intro value best hsub hInv
    simp only [maxLoop]
    set c := f value ⊤ (apply_move board mv) with hc
    rcases lt_or_le value c with hvc | hvc
    · rw [if_pos hvc, if_pos hvc]
      have hvt : value < ⊤ := lt_of_lt_of_le hvc le_top
      have hfc := Hf value (apply_move board mv) hvt
      have hcG : c = g (apply_move board mv) := by
        rcases lt_or_le c ⊤ with hct | hct
        · exact hfc.1 hvc hct
        · have h1 : c ≤ g (apply_move board mv) := hfc.2 hct
          have h2 : c = ⊤ := top_le_iff.1 hct
          have h3 : g (apply_move board mv) = ⊤ := top_le_iff.1 (h2 ▸ h1)
          rw [h2, h3]
      rw [max_eq_right hvc.le]
      by_cases hcut : (⊤ : Score) ≤ c
      · rw [if_pos hcut]
        exact Or.inr ⟨mv, rfl, hsub mv (List.mem_cons_self mv rest), hcG.symm⟩
      · rw [if_neg hcut]
        exact ih c (some mv) (fun x hx => hsub x (List.mem_cons_of_mem _ hx))
          (Or.inr ⟨mv, rfl, hsub mv (List.mem_cons_self mv rest), hcG.symm⟩)
    · rw [if_neg (not_lt.2 hvc), if_neg (not_lt.2 hvc)]
      rw [max_self]
      by_cases hcut : (⊤ : Score) ≤ value
      · rw [if_pos hcut]
        exact hInv
      · rw [if_neg hcut]
        exact ih value best (fun x hx => hsub x (List.mem_cons_of_mem _ hx)) hInv

lemma minLoop_best (f : Score → Score → Board → Score) (g : Board → Score)
    (board : Board)
    (Hf : ∀ (b : Score) (bd : Board), (⊥ : Score) < b →
      ((⊥ : Score) < f ⊥ b bd → f ⊥ b bd < b → f ⊥ b bd = g bd) ∧
      (f ⊥ b bd ≤ ⊥ → g bd ≤ f ⊥ b bd))
    (allMoves : List Move) :
    ∀ (moves : List Move) (value : Score) (best : Option Move),
      (∀ mv ∈ moves, mv ∈ allMoves) →
      ((best = none ∧ value = ⊤) ∨
        ∃ mv, best = some mv ∧ mv ∈ allMoves ∧ g (apply_move board mv) = value) →
      ((minLoop f board ⊥ moves value value best).2 = none ∧
        (minLoop f board ⊥ moves value value best).1 = ⊤) ∨
      ∃ mv, (minLoop f board ⊥ moves value value best).2 = some mv ∧ mv ∈ allMoves ∧
        g (apply_move board mv) = (minLoop f board ⊥ moves value value best).1 := by
  intro moves
  induction moves with
  | nil =>
    intro value best _ hInv
    exact hInv
  | cons mv rest ih =>
    intro value best hsub hInv
    simp only [minLoop]
    set c := f ⊥ value (apply_move board mv) with hc
    rcases lt_or_le c value with hvc | hvc
    · rw [if_pos hvc, if_pos hvc]
      have hvt : (⊥ : Score) < value := lt_of_le_of_lt bot_le hvc
      have hfc := Hf value (apply_move board mv) hvt
      have hcG : c = g (apply_move board mv) := by
        rcases lt_or_le (⊥ : Score) c with hct | hct
        · exact hfc.1 hct hvc
        · have h1 : g (apply_move board mv) ≤ c := hfc.2 hct
          have h2 : c = ⊥ := le_bot_iff.1 hct
          have h3 : g (apply_move board mv) = ⊥ := le_bot_iff.1 (h2 ▸ h1)
          rw [h2, h3]
      rw [min_eq_right hvc.le]
      by_cases hcut : c ≤ (⊥ : Score)
      · rw [if_pos hcut]
        exact Or.inr ⟨mv, rfl, hsub mv (List.mem_cons_self mv rest), hcG.symm⟩
      · rw [if_neg hcut]
        exact ih c (some mv) (fun x hx => hsub x (List.mem_cons_of_mem _ hx))
          (Or.inr ⟨mv, rfl, hsub mv (List.mem_cons_self mv rest), hcG.symm⟩)
    · rw [if_neg (not_lt.2 hvc), if_neg (not_lt.2 hvc)]
      rw [min_self]
      by_cases hcut : value ≤ (⊥ : Score)
      · rw [if_pos hcut]
        exact hInv
      · rw [if_neg hcut]
        exact ih value best (fun x hx => hsub x (List.mem_cons_of_mem _ hx)) hInv

/-- C2 is false as stated: on `trapBoard` at depth 3, Red has exactly one
legal move, yet the search returns (−infinity, none) — no child improves on
the initialized extreme value because every line loses, so the move is
omitted at a node that does have moves. -/
theorem claim_C2_best_move_cex :
    get_all_moves trapBoard "red" = [((1, 1), (0, 2))] ∧
    alpha_beta 3 trapBoard ⊥ ⊤ true = (⊥, none) :=
  ⟨by decide, by decide⟩

lemma maxLoop_value_le (f : Score → Score → Board → Score) (board : Board)
    (beta : Score) :
    ∀ (moves : List Move) (value alpha : Score) (best : Option Move),
      value ≤ (maxLoop f board beta moves value alpha best).1 ∧
      ((maxLoop f board beta moves value alpha best).1 ≤ value →
        (maxLoop f board beta moves value alpha best).2 = best) := by
  intro moves
  induction moves with
  | nil =>
    intro value alpha best
    exact ⟨le_refl _, fun _ => rfl⟩
  | cons mv rest ih =>
    intro value alpha best
    simp only [maxLoop]
    set c := f alpha beta (apply_move board mv) with hc
    rcases lt_or_le value c with hvc | hvc
    · rw [if_pos hvc, if_pos hvc]
      by_cases hcut : beta ≤ max alpha c
      · rw [if_pos hcut]
        dsimp only
        exact ⟨hvc.le, fun h => absurd (lt_of_lt_of_le hvc h) (lt_irrefl value)⟩
      · rw [if_neg hcut]
        obtain ⟨ihm, _⟩ := ih c (max alpha c) (some mv)
        exact ⟨le_trans hvc.le ihm,
          fun h => absurd (lt_of_lt_of_le hvc (le_trans ihm h)) (lt_irrefl value)⟩
    · rw [if_neg (not_lt.2 hvc), if_neg (not_lt.2 hvc)]
      by_cases hcut : beta ≤ max alpha value
      · rw [if_pos hcut]
        exact ⟨le_refl _, fun _ => rfl⟩
      · rw [if_neg hcut]
        exact ih value (max alpha value) best

lemma minLoop_value_le (f : Score → Score → Board → Score) (board : Board)
    (alpha : Score) :
    ∀ (moves : List Move) (value beta : Score) (best : Option Move),
      (minLoop f board alpha moves value beta best).1 ≤ value ∧
      (value ≤ (minLoop f board alpha moves value beta best).1 →
        (minLoop f board alpha moves value beta best).2 = best) := by
  intro moves
  induction moves with
  | nil =>
    intro value beta best
    exact ⟨le_refl _, fun _ => rfl⟩
  | cons mv rest ih =>
    intro value beta best
    simp only [minLoop]
    set c := f alpha beta (apply_move board mv) with hc
    rcases lt_or_le c value with hvc | hvc
    · rw [if_pos hvc, if_pos hvc]
      by_cases hcut : min beta c ≤ alpha
      · rw [if_pos hcut]
        dsimp only
        exact ⟨hvc.le, fun h => absurd (lt_of_lt_of_le hvc h) (lt_irrefl c)⟩
      · rw [if_neg hcut]
        obtain ⟨ihm, _⟩ := ih c (min beta c) (some mv)
        exact ⟨le_trans ihm hvc.le,
          fun h => absurd (lt_of_lt_of_le hvc (le_trans h ihm)) (lt_irrefl c)⟩
    · rw [if_neg (not_lt.2 hvc), if_neg (not_lt.2 hvc)]
      by_cases hcut : min beta value ≤ alpha
      · rw [if_pos hcut]
        exact ⟨le_refl _, fun _ => rfl⟩
      · rw [if_neg hcut]
        exact ih value (min beta value) best

/-- C2 amended: at depth d+1 with the standard root window, the move
component is omitted exactly when the returned score is the mover's losing
sentinel (−infinity for the maximizing side, +infinity for the minimizing
side) — which happens at no-moves nodes and, beyond the claim's wording,
also when every generated move's line loses; whenever the returned score is
not that sentinel, the search returns a move that was generated for the
side to move and whose subtree's exact (unpruned minimax) value equals the
returned score. -/
theorem claim_C2_best_move (b : Board) (d : Nat) (m : Bool) :
    ((alpha_beta (d + 1) b ⊥ ⊤ m).1 = (if m then (⊥ : Score) else ⊤) →
      (alpha_beta (d + 1) b ⊥ ⊤ m).2 = none) ∧
    (((alpha_beta (d + 1) b ⊥ ⊤ m).2 = none ∧
      (alpha_beta (d + 1) b ⊥ ⊤ m).1 = (if m then (⊥ : Score) else ⊤)) ∨
    ∃ mv, (alpha_beta (d + 1) b ⊥ ⊤ m).2 = some mv ∧
      mv ∈ get_all_moves b (if m then "red" else "black") ∧
      (minimax d (apply_move b mv) (!m)).1 = (alpha_beta (d + 1) b ⊥ ⊤ m).1) := by
  cases m
  · by_cases hmoves : get_all_moves b "black" = []
    · refine ⟨fun _ => by simp [alpha_beta, hmoves],
        Or.inl ⟨by simp [alpha_beta, hmoves], by simp [alpha_beta, hmoves]⟩⟩
    · have e1 := alpha_beta_succ_false d b ⊥ ⊤ hmoves
      have hbest := minLoop_best (fun a b' bd => (alpha_beta d bd a b' true).1)
        (fun bd => (minimax d bd true).1) b
        (fun b' bd hb => ⟨(alpha_beta_failsoft d bd ⊥ b' true hb).2.1,
          fun hle => (alpha_beta_failsoft d bd ⊥ b' true hb).1 hle⟩)
        (get_all_moves b "black") (get_all_moves b "black") ⊤ none
        (fun _ hx => hx) (Or.inl ⟨rfl, rfl⟩)
      rw [e1]
      refine ⟨?_, by simpa using hbest⟩
      intro h
      exact (minLoop_value_le (fun a b' bd => (alpha_beta d bd a b' true).1) b ⊥
        (get_all_moves b "black") ⊤ ⊤ none).2 (le_of_eq h.symm)
  · by_cases hmoves : get_all_moves b "red" = []
    · refine ⟨fun _ => by simp [alpha_beta, hmoves],
        Or.inl ⟨by simp [alpha_beta, hmoves], by simp [alpha_beta, hmoves]⟩⟩
    · have e1 := alpha_beta_succ_true d b ⊥ ⊤ hmoves
      have hbest := maxLoop_best (fun a b' bd => (alpha_beta d bd a b' false).1)
        (fun bd => (minimax d bd false).1) b
        (fun a bd ha => ⟨(alpha_beta_failsoft d bd a ⊤ false ha).2.1,
          fun hle => (alpha_beta_failsoft d bd a ⊤ false ha).2.2 hle⟩)
        (get_all_moves b "red") (get_all_moves b "red") ⊥ none
        (fun _ hx => hx) (Or.inl ⟨rfl, rfl⟩)
      rw [e1]
      refine ⟨?_, by simpa using hbest⟩
      intro h
      exact (maxLoop_value_le (fun a b' bd => (alpha_beta d bd a b' false).1) b ⊤
        (get_all_moves b "red") ⊥ ⊥ none).2 (le_of_eq h)
